import Mathlib

/-!
# Liveness prober (`pkg/liveness`)

A shallow embedding of `prober.go` and `service.go`.

* `Servicer` is the one-method interface of `service.go`.  A target's check may
  have effects, so `IsAlive` threads a world `σ`; a pure boolean check is
  `Servicer.pure`.
* `Watch.evaluate` is the body of the responder loop (`prober.go` 44-47).
* The goroutines and the two unbuffered channels are a transition system:
  a `State` lists the blocked goroutines with their program points, and an
  `Event` is one atomic action (a rendezvous on a channel, a branch of the
  `select`, a clock tick, a call from the embedding program).  An unbuffered
  channel holds no value of its own, its state is the goroutines blocked on it.
* Time is a logical clock counted in ticks; a check that takes long is a
  schedule with many ticks between the receipt of the query and the event
  that ends the evaluation.
* The `select` of `IsAlive` takes a case that is ready: the response case when a
  responder is blocked at its send, the deadline case from the deadline on.  When
  both are ready either may be taken, as Go chooses among ready cases at random.
* `defer cancel()` runs after the value to return is fixed and is not represented;
  `askCh` is never closed by this package, so the responder loop has no exit.
-/

namespace liveness

/-! ## Data model -/

/-- A `context.Context` made by `context.WithTimeout`: the identity of the value
(`id`, the number of `IsAlive()` calls made before it) and its absolute expiry. -/
structure Context where
  id : Nat
  deadline : Int
deriving DecidableEq, Repr

/-- The call `ctx.Done()` yields a channel that is closed from the deadline on. -/
def Context.Done (ctx : Context) (now : Int) : Bool :=
  decide (ctx.deadline ≤ now)

/-- The call `context.WithTimeout(context.Background(), timeout)` at time `now`. -/
def WithTimeout (id : Nat) (now : Int) (timeout : Int) : Context :=
  { id := id, deadline := now + timeout }

/-- The interface `Servicer` (`service.go` 5-7): `IsAlive(ctx) bool`, run in a world `σ`. -/
structure Servicer (σ : Type) where
  IsAlive : Context → σ → Bool × σ

/-- A target whose check is a pure boolean function of the query context. -/
def Servicer.pure {σ : Type} (f : Context → Bool) : Servicer σ :=
  { IsAlive := fun ctx w => (f ctx, w) }

/-- A pure target that also records its index in a call log each time it is invoked. -/
def Servicer.logged (i : Nat) (f : Context → Bool) : Servicer (List Nat) :=
  { IsAlive := fun ctx log => (f ctx, log ++ [i]) }

/-- The struct `Prob` (`prober.go` 27-31).  `askCh` and `respCh` are unbuffered and
so carry no state; what is left is the timeout (a `time.Duration`, signed). -/
structure Prob where
  timeout : Int
deriving DecidableEq, Repr

/-- The constructor `NewProbe` (`prober.go` 33-39). -/
def NewProbe (timeout : Int) : Prob :=
  { timeout := timeout }

/-! ## The responder loop -/

/-- Lines 44-47 of `Watch`:
`isAlive := true; for _, service := range services { isAlive = isAlive && service.IsAlive(ctx) }`.
Go's `&&` evaluates its right operand only when the left one is true. -/
def Watch.evaluate {σ : Type} (services : List (Servicer σ)) (ctx : Context) (w : σ) :
    Bool × σ :=
  services.foldl
    (fun acc service => if acc.1 then service.IsAlive ctx acc.2 else (false, acc.2))
    (true, w)

/-- Program point of a responder goroutine started by `Watch`. -/
inductive Pc where
  /-- blocked at `for ctx := range p.askCh` -/
  | recvAsk
  /-- holds `ctx`, lines 44-47 not finished yet -/
  | evaluating (ctx : Context)
  /-- blocked at `p.respCh <- isAlive`, `ctx` still being the loop variable -/
  | sendResp (ctx : Context) (isAlive : Bool)
deriving DecidableEq, Repr

/-- One goroutine started by `Watch(services...)`. -/
structure Responder (σ : Type) where
  services : List (Servicer σ)
  pc : Pc

/-- Where an `IsAlive()` call stands: blocked in the `select`, or returned through
one of its two cases.  `received r query` remembers the loop variable `ctx` of the
responder iteration that sent `r`. -/
inductive Outcome where
  | waiting
  | timedOut
  | received (r : Bool) (query : Context)
deriving DecidableEq, Repr

/-- One `IsAlive()` call: its own context and where it stands. -/
structure Call where
  ctx : Context
  outcome : Outcome
deriving DecidableEq, Repr

/-- The value the call returned, if it has returned (`prober.go` 61-66). -/
def Call.result (c : Call) : Option Bool :=
  match c.outcome with
  | .waiting => none
  | .timedOut => some false
  | .received r _ => some r

/-- A state of the probe: the clock, the world the targets act on, the responder
goroutines, the goroutines blocked at `p.askCh <- ctx`, and the `IsAlive()` calls
made so far. -/
structure State (σ : Type) where
  now : Int
  world : σ
  responders : List (Responder σ)
  senders : List Context
  calls : List Call

/-- The probe right after `NewProbe`: `Watch` not called, no query issued. -/
def State.init {σ : Type} (w : σ) : State σ :=
  { now := 0, world := w, responders := [], senders := [], calls := [] }

/-! ## The operations, one atomic action each -/

/-- The method `Watch(services...)` (`prober.go` 41-51): starts one responder goroutine, which
blocks on `askCh`. -/
def Prob.Watch {σ : Type} (s : State σ) (services : List (Servicer σ)) : State σ :=
  { s with responders := s.responders ++ [{ services := services, pc := .recvAsk }] }

/-- The method `IsAlive()` up to the `select` (`prober.go` 54-60): a fresh context bound to
the timeout, a goroutine that sends it on `askCh`, and the caller waiting in the
`select`. -/
def Prob.IsAlive {σ : Type} (p : Prob) (s : State σ) : State σ :=
  let ctx := WithTimeout s.calls.length s.now p.timeout
  { s with senders := s.senders ++ [ctx],
           calls := s.calls ++ [{ ctx := ctx, outcome := .waiting }] }

/-- Rendezvous on `askCh`: sender `i` (`p.askCh <- ctx`, line 58) meets responder `j`
(`for ctx := range p.askCh`, line 43). -/
def askRendezvous {σ : Type} (s : State σ) (i j : Nat) : Option (State σ) :=
  match s.senders[i]?, s.responders[j]? with
  | some ctx, some ⟨services, .recvAsk⟩ =>
      some { s with senders := s.senders.eraseIdx i,
                    responders := s.responders.set j ⟨services, .evaluating ctx⟩ }
  | _, _ => none

/-- Responder `j` runs lines 44-47 and reaches `p.respCh <- isAlive`. -/
def Watch.loopBody {σ : Type} (s : State σ) (j : Nat) : Option (State σ) :=
  match s.responders[j]? with
  | some ⟨services, .evaluating ctx⟩ =>
      let r := Watch.evaluate services ctx s.world
      some { s with world := r.2,
                    responders := s.responders.set j ⟨services, .sendResp ctx r.1⟩ }
  | _ => none

/-- The `select` case `r := <-p.respCh` (lines 64-65): call `c` meets responder `j`
blocked at line 48, returns its value, and the responder loops back to line 43. -/
def IsAlive.caseResp {σ : Type} (s : State σ) (j c : Nat) : Option (State σ) :=
  match s.responders[j]?, s.calls[c]? with
  | some ⟨services, .sendResp query r⟩, some ⟨ctx, .waiting⟩ =>
      some { s with responders := s.responders.set j ⟨services, .recvAsk⟩,
                    calls := s.calls.set c ⟨ctx, .received r query⟩ }
  | _, _ => none

/-- The `select` case `<-ctx.Done()` (lines 62-63): call `c` returns `false`. -/
def IsAlive.caseDone {σ : Type} (s : State σ) (c : Nat) : Option (State σ) :=
  match s.calls[c]? with
  | some ⟨ctx, .waiting⟩ =>
      if ctx.Done s.now then some { s with calls := s.calls.set c ⟨ctx, .timedOut⟩ }
      else none
  | _ => none

/-- The atomic actions of an execution. -/
inductive Event (σ : Type) where
  /-- one unit of time passes -/
  | tick
  /-- the embedding program calls `Watch(services...)` -/
  | watch (services : List (Servicer σ))
  /-- the embedding program calls `IsAlive()` -/
  | call
  /-- sender `i` hands its context to responder `j` -/
  | ask (i j : Nat)
  /-- responder `j` finishes evaluating its targets -/
  | eval (j : Nat)
  /-- call `c` receives the value responder `j` is sending -/
  | respond (j c : Nat)
  /-- call `c` leaves through `ctx.Done()` -/
  | timeout (c : Nat)

/-- Whether the event is a `Watch` call. -/
def Event.isWatch {σ : Type} : Event σ → Bool
  | .watch _ => true
  | _ => false

/-- Whether the event is an `IsAlive()` call. -/
def Event.isCall {σ : Type} : Event σ → Bool
  | .call => true
  | _ => false

/-- Whether the event delivers a response to call `c`. -/
def Event.respondsTo {σ : Type} (c : Nat) : Event σ → Bool
  | .respond _ c' => c' == c
  | _ => false

/-- Whether the event makes call `c` return. -/
def Event.returns {σ : Type} (c : Nat) : Event σ → Bool
  | .respond _ c' => c' == c
  | .timeout c' => c' == c
  | _ => false

/-- One step: `none` when the action is not enabled in `s`. -/
def step {σ : Type} (p : Prob) (s : State σ) : Event σ → Option (State σ)
  | .tick => some { s with now := s.now + 1 }
  | .watch services => some (Prob.Watch s services)
  | .call => some (p.IsAlive s)
  | .ask i j => askRendezvous s i j
  | .eval j => Watch.loopBody s j
  | .respond j c => IsAlive.caseResp s j c
  | .timeout c => IsAlive.caseDone s c

/-- An execution: the events applied in order. -/
def run {σ : Type} (p : Prob) (s : State σ) : List (Event σ) → Option (State σ)
  | [] => some s
  | e :: es => (step p s e).bind (fun s' => run p s' es)

/-- The values returned so far, one entry per `IsAlive()` call in call order. -/
def State.results {σ : Type} (s : State σ) : List (Option Bool) :=
  s.calls.map Call.result

/-- The direct round trip of call number `c` with the single responder: the call,
the hand-over of its query, the evaluation, the response. -/
def roundTrip {σ : Type} (c : Nat) : List (Event σ) :=
  [.call, .ask 0 0, .eval 0, .respond 0 c]

/-- The schedule of `n` successive round trips, the first being call number `c`. -/
def roundTrips {σ : Type} : Nat → Nat → List (Event σ)
  | _, 0 => []
  | c, n + 1 => roundTrip c ++ roundTrips (c + 1) n

/-- The number of targets the loop invokes at `ctx`: those before the first one that
reports false, and that one. -/
def invoked (fs : List (Context → Bool)) (ctx : Context) : Nat :=
  min ((fs.takeWhile (fun f => f ctx)).length + 1) fs.length

/-- The targets `fs`, each logging its position in the list when invoked. -/
def loggedFrom : Nat → List (Context → Bool) → List (Servicer (List Nat))
  | _, [] => []
  | i, f :: fs => Servicer.logged i f :: loggedFrom (i + 1) fs

/-! ## Properties of states -/

/-- Every responder goroutine was started with a target list satisfying `Q`. -/
def Registered {σ : Type} (Q : List (Servicer σ) → Prop) (s : State σ) : Prop :=
  ∀ r ∈ s.responders, Q r.services

/-- Every value a responder is sending, and every value a call has received, satisfies
`P` together with the query it was computed for. -/
def Answers {σ : Type} (P : Context → Bool → Prop) (s : State σ) : Prop :=
  (∀ r ∈ s.responders, ∀ q b, r.pc = .sendResp q b → P q b) ∧
  (∀ c ∈ s.calls, ∀ b q, c.outcome = .received b q → P q b)

/-- The context `q` is the query of some `IsAlive()` call made so far. -/
def Issued {σ : Type} (s : State σ) (q : Context) : Prop :=
  q ∈ s.calls.map Call.ctx

/-- Every context in flight (in a pending send, held by a responder, or attached to
a received answer) is the query of some call. -/
def InFlight {σ : Type} (s : State σ) : Prop :=
  (∀ x ∈ s.senders, Issued s x) ∧
  (∀ r ∈ s.responders, ∀ q, (r.pc = .evaluating q → Issued s q) ∧
    (∀ b, r.pc = .sendResp q b → Issued s q)) ∧
  (∀ c ∈ s.calls, ∀ b q, c.outcome = .received b q → Issued s q)

/-- Nothing is going on: no send is pending on `askCh`, every responder is blocked at
the receive of line 43, and no call is waiting in its `select`. -/
def State.quiescent {σ : Type} (s : State σ) : Prop :=
  s.senders = [] ∧ (∀ r ∈ s.responders, r.pc = .recvAsk) ∧
    (∀ c ∈ s.calls, c.outcome ≠ .waiting)

/-- Whether a responder holds a query (it is evaluating it or sending its answer). -/
def Pc.busy : Pc → Bool
  | .recvAsk => false
  | .evaluating _ => true
  | .sendResp _ _ => true

/-- Whether a call has not received a response (it is waiting, or it timed out). -/
def Outcome.unanswered : Outcome → Bool
  | .waiting => true
  | .timedOut => true
  | .received _ _ => false

/-- Every query issued is accounted for: the pending sends and the busy responders are
as many as the calls that have not received a response. -/
def Balanced {σ : Type} (s : State σ) : Prop :=
  s.senders.length + s.responders.countP (fun r => r.pc.busy) =
    s.calls.countP (fun c => c.outcome.unanswered)

/-- Call number `n`, with query `ctx`, is the only call that can still be served: every
context in flight is `ctx`, no other call waits, and what call `n` received, it received
for `ctx`. -/
def Paired {σ : Type} (n : Nat) (ctx : Context) (s : State σ) : Prop :=
  (∀ x ∈ s.senders, x = ctx) ∧
  (∀ r ∈ s.responders, ∀ q, (r.pc = .evaluating q → q = ctx) ∧
    (∀ b, r.pc = .sendResp q b → q = ctx)) ∧
  (∀ i c, s.calls[i]? = some c → c.outcome = .waiting → i = n) ∧
  (∀ c, s.calls[n]? = some c → c.ctx = ctx ∧ ∀ b q, c.outcome = .received b q → q = ctx)

/-- Call number `k`, made at time `now` and answered by a responder watching the pure
targets `fs`: it holds the conjunction of the targets at its own query. -/
def answered (p : Prob) (fs : List (Context → Bool)) (now : Int) (k : Nat) : Call :=
  let ctx := WithTimeout k now p.timeout
  { ctx := ctx, outcome := .received (fs.all (fun f => f ctx)) ctx }

/-- The scenario of a slow target: `Watch` on one target that reports true, one call,
its query handed over, then `d` ticks until the deadline case fires, and `d'` more ticks
until the target's check is over. -/
def slowSchedule (d d' : Nat) : List (Event Unit) :=
  [.watch [Servicer.pure (fun _ => true)], .call, .ask 0 0] ++ List.replicate d .tick ++
    [.timeout 0] ++ List.replicate d' .tick ++ [.eval 0]

/-- An unending schedule: at step `k` the scheduler picks `ev k`; an action that is not
enabled then leaves the state as it is. -/
def trajectory {σ : Type} (p : Prob) (s : State σ) (ev : Nat → Event σ) : Nat → State σ
  | 0 => s
  | k + 1 =>
    match step p (trajectory p s ev k) (ev k) with
    | some t => t
    | none => trajectory p s ev k

/-- The unending schedule that lets one unit of time pass and then gives the `select` of
call 0 a turn at its deadline case, again and again. -/
def tickThenPoll : Nat → Event Unit :=
  fun k => if k % 2 = 0 then .tick else .timeout 0

/-- Whether `ok` holds at every step of the execution of `es` from `s`, of the state
the step is taken in and the event taken. -/
def holdsAlong {σ : Type} (p : Prob) (ok : State σ → Event σ → Bool) :
    State σ → List (Event σ) → Bool
  | _, [] => true
  | s, e :: es =>
    ok s e && (match step p s e with
      | some t => holdsAlong p ok t es
      | none => true)

/-- The `select` of call `i` is served as soon as its deadline case is ready: no unit of
time passes while the call waits with its deadline reached. -/
def servedAtDeadline {σ : Type} (i : Nat) (s : State σ) : Event σ → Bool
  | .tick =>
    match s.calls[i]? with
    | some ⟨ctx, .waiting⟩ => !(ctx.Done s.now)
    | _ => true
  | _ => true

/-- No response is delivered to call `i` while the clock has not passed its deadline
(`now ≤ deadline`). -/
def notAnsweredByDeadline {σ : Type} (i : Nat) (s : State σ) : Event σ → Bool
  | .respond _ c =>
    match s.calls[i]? with
    | some call => !(c == i && decide (s.now ≤ call.ctx.deadline))
    | none => true
  | _ => true

/-! ## The loop body -/

section loop

variable {σ : Type}

/-- Once `isAlive` is false the remaining iterations leave value and world alone. -/
theorem foldl_evaluate_false (services : List (Servicer σ)) (ctx : Context) (w : σ) :
    services.foldl
      (fun acc service => if acc.1 then service.IsAlive ctx acc.2 else (false, acc.2))
      (false, w) = (false, w) := by
  induction services with
  | nil => rfl
  | cons service rest ih => simpa using ih

/-- The loop over pure targets computes the conjunction and leaves the world alone. -/
theorem foldl_evaluate_pure (fs : List (Context → Bool)) (ctx : Context) (b : Bool) (w : σ) :
    (fs.map Servicer.pure).foldl
      (fun acc service => if acc.1 then service.IsAlive ctx acc.2 else (false, acc.2))
      (b, w) = (b && fs.all (fun f => f ctx), w) := by
  induction fs generalizing b with
  | nil => simp
  | cons f rest ih =>
    cases b with
    | false =>
      have h := foldl_evaluate_false (rest.map Servicer.pure) ctx w
      simpa using h
    | true =>
      have h := ih (f ctx)
      simpa [Servicer.pure] using h

theorem evaluate_pure (fs : List (Context → Bool)) (ctx : Context) (w : σ) :
    Watch.evaluate (fs.map Servicer.pure) ctx w = (fs.all (fun f => f ctx), w) := by
  have h := foldl_evaluate_pure fs ctx true w
  simpa [Watch.evaluate] using h

/-- A target that reports false whatever the world makes the loop end with false. -/
theorem foldl_evaluate_of_false (services : List (Servicer σ)) (ctx : Context)
    (service : Servicer σ) (hmem : service ∈ services)
    (hfalse : ∀ w, (service.IsAlive ctx w).1 = false) (acc : Bool × σ) :
    (services.foldl
      (fun acc service => if acc.1 then service.IsAlive ctx acc.2 else (false, acc.2))
      acc).1 = false := by
  induction services generalizing acc with
  | nil => cases hmem
  | cons head rest ih =>
    rw [List.foldl_cons]
    rcases List.mem_cons.mp hmem with heq | hrest
    · subst heq
      obtain ⟨b, w⟩ := acc
      cases b with
      | false => simp [foldl_evaluate_false]
      | true =>
        have h := hfalse w
        have h2 : service.IsAlive ctx w = (false, (service.IsAlive ctx w).2) :=
          Prod.ext h rfl
        simp only [if_true]
        rw [h2, foldl_evaluate_false]
    · exact ih hrest _

theorem evaluate_of_false (services : List (Servicer σ)) (ctx : Context) (w : σ)
    (service : Servicer σ) (hmem : service ∈ services)
    (hfalse : ∀ w, (service.IsAlive ctx w).1 = false) :
    (Watch.evaluate services ctx w).1 = false :=
  foldl_evaluate_of_false services ctx service hmem hfalse (true, w)

/-- Targets that all report true whatever the world make the loop end with true. -/
theorem foldl_evaluate_of_true (services : List (Servicer σ)) (ctx : Context)
    (htrue : ∀ service ∈ services, ∀ w, (service.IsAlive ctx w).1 = true) (w : σ) :
    (services.foldl
      (fun acc service => if acc.1 then service.IsAlive ctx acc.2 else (false, acc.2))
      (true, w)).1 = true := by
  induction services generalizing w with
  | nil => rfl
  | cons head rest ih =>
    rw [List.foldl_cons]
    have h := htrue head (List.mem_cons_self _ _) w
    have h2 : head.IsAlive ctx w = (true, (head.IsAlive ctx w).2) := Prod.ext h rfl
    simp only [if_true]
    rw [h2]
    exact ih (fun service hs => htrue service (List.mem_cons_of_mem _ hs)) _

theorem evaluate_of_true (services : List (Servicer σ)) (ctx : Context) (w : σ)
    (htrue : ∀ service ∈ services, ∀ w, (service.IsAlive ctx w).1 = true) :
    (Watch.evaluate services ctx w).1 = true :=
  foldl_evaluate_of_true services ctx htrue w

end loop

theorem invoked_cons_true (f : Context → Bool) (fs : List (Context → Bool)) (ctx : Context)
    (h : f ctx = true) : invoked (f :: fs) ctx = invoked fs ctx + 1 := by
  simp [invoked, List.takeWhile_cons, h, Nat.succ_min_succ]

theorem invoked_cons_false (f : Context → Bool) (fs : List (Context → Bool)) (ctx : Context)
    (h : f ctx = false) : invoked (f :: fs) ctx = 1 := by
  simp [invoked, List.takeWhile_cons, h]

/-- The loop over logging targets: the value is the conjunction, and the log grows by
the positions of the targets up to and including the first that reports false. -/
theorem foldl_evaluate_logged (fs : List (Context → Bool)) (ctx : Context) (i : Nat)
    (log : List Nat) :
    (loggedFrom i fs).foldl
      (fun acc service => if acc.1 then service.IsAlive ctx acc.2 else (false, acc.2))
      (true, log) = (fs.all (fun f => f ctx), log ++ List.range' i (invoked fs ctx)) := by
  induction fs generalizing i log with
  | nil => simp [loggedFrom, invoked]
  | cons f rest ih =>
    cases hf : f ctx with
    | true =>
      have h := ih (i + 1) (log ++ [i])
      rw [invoked_cons_true f rest ctx hf, List.range'_succ]
      simpa [loggedFrom, Servicer.logged, hf] using h
    | false =>
      rw [invoked_cons_false f rest ctx hf]
      simp [loggedFrom, Servicer.logged, hf, foldl_evaluate_false]

/-! ## Inversion of the steps -/

section steps

variable {σ : Type}

theorem askRendezvous_some {s s' : State σ} {i j : Nat} (h : askRendezvous s i j = some s') :
    ∃ ctx services, s.senders[i]? = some ctx ∧
      s.responders[j]? = some ⟨services, .recvAsk⟩ ∧
      s' = { s with senders := s.senders.eraseIdx i,
                    responders := s.responders.set j ⟨services, .evaluating ctx⟩ } := by
  unfold askRendezvous at h
  split at h
  · next ctx services h1 h2 =>
    exact ⟨ctx, services, h1, h2, (Option.some.inj h).symm⟩
  · cases h

theorem loopBody_some {s s' : State σ} {j : Nat} (h : Watch.loopBody s j = some s') :
    ∃ ctx services, s.responders[j]? = some ⟨services, .evaluating ctx⟩ ∧
      s' = { s with world := (Watch.evaluate services ctx s.world).2,
                    responders := s.responders.set j
                      ⟨services, .sendResp ctx (Watch.evaluate services ctx s.world).1⟩ } := by
  unfold Watch.loopBody at h
  split at h
  · next services ctx h1 =>
    exact ⟨ctx, services, h1, (Option.some.inj h).symm⟩
  · cases h

theorem caseResp_some {s s' : State σ} {j c : Nat} (h : IsAlive.caseResp s j c = some s') :
    ∃ services query r ctx, s.responders[j]? = some ⟨services, .sendResp query r⟩ ∧
      s.calls[c]? = some ⟨ctx, .waiting⟩ ∧
      s' = { s with responders := s.responders.set j ⟨services, .recvAsk⟩,
                    calls := s.calls.set c ⟨ctx, .received r query⟩ } := by
  unfold IsAlive.caseResp at h
  split at h
  · next services query r ctx h1 h2 =>
    exact ⟨services, query, r, ctx, h1, h2, (Option.some.inj h).symm⟩
  · cases h

theorem caseDone_some {s s' : State σ} {c : Nat} (h : IsAlive.caseDone s c = some s') :
    ∃ ctx, s.calls[c]? = some ⟨ctx, .waiting⟩ ∧ ctx.deadline ≤ s.now ∧
      s' = { s with calls := s.calls.set c ⟨ctx, .timedOut⟩ } := by
  unfold IsAlive.caseDone at h
  split at h
  · next ctx h1 =>
    split at h
    · next hd =>
      exact ⟨ctx, h1, by simpa [Context.Done] using hd, (Option.some.inj h).symm⟩
    · cases h
  · cases h

theorem run_nil (p : Prob) (s : State σ) : run p s [] = some s := rfl

theorem run_cons (p : Prob) (s : State σ) (e : Event σ) (es : List (Event σ)) :
    run p s (e :: es) = (step p s e).bind (fun s' => run p s' es) := rfl

theorem run_cons_some {p : Prob} {s s' : State σ} {e : Event σ} {es : List (Event σ)}
    (h : run p s (e :: es) = some s') :
    ∃ t, step p s e = some t ∧ run p t es = some s' := by
  rw [run_cons] at h
  cases hs : step p s e with
  | none => rw [hs] at h; cases h
  | some t => rw [hs] at h; exact ⟨t, rfl, h⟩

theorem run_append (p : Prob) (s : State σ) (es fs : List (Event σ)) :
    run p s (es ++ fs) = (run p s es).bind (fun t => run p t fs) := by
  induction es generalizing s with
  | nil => rfl
  | cons e es ih =>
    rw [List.cons_append, run_cons, run_cons]
    cases step p s e with
    | none => rfl
    | some t => exact ih t

/-- A property kept by every step that the schedule allows is kept by the execution. -/
theorem run_induction {p : Prob} (I : State σ → Prop) (ok : Event σ → Prop)
    (hstep : ∀ s e s', ok e → I s → step p s e = some s' → I s')
    {s s' : State σ} {es : List (Event σ)} (hok : ∀ e ∈ es, ok e) (hI : I s)
    (hrun : run p s es = some s') : I s' := by
  induction es generalizing s with
  | nil => cases hrun; exact hI
  | cons e es ih =>
    obtain ⟨t, ht, hrest⟩ := run_cons_some hrun
    exact ih (fun e' he' => hok e' (List.mem_cons_of_mem _ he'))
      (hstep s e t (hok e (List.mem_cons_self _ _)) hI ht) hrest

end steps

/-! ## Invariants of executions -/

section invariants

variable {σ : Type}

/-- What responders send is what the loop body computes: if the loop body of every
registered list yields answers satisfying `P`, all answers in the state satisfy `P`. -/
theorem answers_step {p : Prob} {Q : List (Servicer σ) → Prop} {P : Context → Bool → Prop}
    (hQ : ∀ services, Q services → ∀ ctx w, P ctx (Watch.evaluate services ctx w).1)
    (s : State σ) (e : Event σ) (s' : State σ)
    (he : ∀ services, e = .watch services → Q services)
    (hI : Registered Q s ∧ Answers P s) (hs : step p s e = some s') :
    Registered Q s' ∧ Answers P s' := by
  obtain ⟨hreg, hresp, hcalls⟩ := hI
  cases e with
  | tick =>
    cases hs
    exact ⟨hreg, hresp, hcalls⟩
  | watch services =>
    cases hs
    refine ⟨?_, ?_, hcalls⟩
    · intro r hr
      rcases List.mem_append.mp hr with h | h
      · exact hreg r h
      · rw [List.mem_singleton.mp h]; exact he services rfl
    · intro r hr q b hpc
      rcases List.mem_append.mp hr with h | h
      · exact hresp r h q b hpc
      · rw [List.mem_singleton.mp h] at hpc; cases hpc
  | call =>
    cases hs
    refine ⟨hreg, hresp, ?_⟩
    intro c hc b q ho
    rcases List.mem_append.mp hc with h | h
    · exact hcalls c h b q ho
    · rw [List.mem_singleton.mp h] at ho; cases ho
  | ask i j =>
    obtain ⟨ctx, services, _, hj, rfl⟩ := askRendezvous_some hs
    refine ⟨?_, ?_, hcalls⟩
    · intro r hr
      rcases List.mem_or_eq_of_mem_set hr with h | h
      · exact hreg r h
      · rw [h]
        have hsv := hreg _ (List.getElem?_mem hj)
        exact hsv
    · intro r hr q b hpc
      rcases List.mem_or_eq_of_mem_set hr with h | h
      · exact hresp r h q b hpc
      · rw [h] at hpc; cases hpc
  | eval j =>
    obtain ⟨ctx, services, hj, rfl⟩ := loopBody_some hs
    have hsv : Q services := hreg _ (List.getElem?_mem hj)
    refine ⟨?_, ?_, hcalls⟩
    · intro r hr
      rcases List.mem_or_eq_of_mem_set hr with h | h
      · exact hreg r h
      · rw [h]; exact hsv
    · intro r hr q b hpc
      rcases List.mem_or_eq_of_mem_set hr with h | h
      · exact hresp r h q b hpc
      · rw [h] at hpc
        cases hpc
        exact hQ services hsv ctx s.world
  | respond j c =>
    obtain ⟨services, query, r, ctx, hj, _, rfl⟩ := caseResp_some hs
    refine ⟨?_, ?_, ?_⟩
    · intro r' hr
      rcases List.mem_or_eq_of_mem_set hr with h | h
      · exact hreg r' h
      · rw [h]
        have hsv := hreg _ (List.getElem?_mem hj)
        exact hsv
    · intro r' hr q b hpc
      rcases List.mem_or_eq_of_mem_set hr with h | h
      · exact hresp r' h q b hpc
      · rw [h] at hpc; cases hpc
    · intro c' hc b q ho
      rcases List.mem_or_eq_of_mem_set hc with h | h
      · exact hcalls c' h b q ho
      · rw [h] at ho
        cases ho
        exact hresp _ (List.getElem?_mem hj) query r rfl
  | timeout c =>
    obtain ⟨ctx, _, _, rfl⟩ := caseDone_some hs
    refine ⟨hreg, hresp, ?_⟩
    intro c' hc b q ho
    rcases List.mem_or_eq_of_mem_set hc with h | h
    · exact hcalls c' h b q ho
    · rw [h] at ho; cases ho

theorem answers_init (Q : List (Servicer σ) → Prop) (P : Context → Bool → Prop) (w : σ) :
    Registered Q (State.init w) ∧ Answers P (State.init w) := by
  refine ⟨?_, ?_, ?_⟩
  · intro r hr; cases hr
  · intro r hr; cases hr
  · intro c hc; cases hc

/-- The invariant of `answers_step` for an execution that calls `Watch` once, first,
and never again. -/
theorem answers_run {p : Prob} {P : Context → Bool → Prop} (services : List (Servicer σ))
    (hQ : ∀ ctx w, P ctx (Watch.evaluate services ctx w).1)
    (w : σ) (es : List (Event σ)) (s : State σ)
    (hes : ∀ e ∈ es, e.isWatch = false)
    (hrun : run p (State.init w) (.watch services :: es) = some s) :
    Registered (fun l => l = services) s ∧ Answers P s := by
  refine run_induction (fun t => Registered (fun l => l = services) t ∧ Answers P t)
    (fun e => ∀ l, e = .watch l → l = services) ?_ ?_ (answers_init _ _ w) hrun
  · intro t e t' he hI ht
    exact answers_step (fun l hl ctx w' => by rw [hl]; exact hQ ctx w') t e t' he hI ht
  · intro e he l hl
    rcases List.mem_cons.mp he with h | h
    · rw [hl] at h; cases h; rfl
    · have := hes e h
      rw [hl] at this
      cases this

/-- A returned value that is true was received from the response channel. -/
theorem result_true_received (c : Call) (h : c.result = some true) :
    ∃ q, c.outcome = .received true q := by
  unfold Call.result at h
  split at h
  · cases h
  · cases h
  · next r q ho =>
    cases h
    exact ⟨q, ho⟩

end invariants

section pairing

variable {σ : Type}

/-- Returning from a call does not change the list of queries issued. -/
theorem map_ctx_set (l : List Call) (c : Nat) (x : Call) (o : Outcome)
    (h : l[c]? = some x) : (l.set c ⟨x.ctx, o⟩).map Call.ctx = l.map Call.ctx := by
  induction l generalizing c with
  | nil => rfl
  | cons head rest ih =>
    cases c with
    | zero =>
      have hx : head = x := by simpa using h
      simp [hx]
    | succ c =>
      have hr : rest[c]? = some x := by simpa using h
      simp [ih c hr]

theorem inFlight_step {p : Prob} (s : State σ) (e : Event σ) (s' : State σ)
    (hI : InFlight s) (hs : step p s e = some s') : InFlight s' := by
  obtain ⟨hsend, hresp, hcalls⟩ := hI
  cases e with
  | tick =>
    cases hs
    exact ⟨hsend, hresp, hcalls⟩
  | watch services =>
    cases hs
    refine ⟨hsend, ?_, hcalls⟩
    intro r hr q
    rcases List.mem_append.mp hr with h | h
    · exact hresp r h q
    · rw [List.mem_singleton.mp h]
      exact ⟨fun hpc => (by cases hpc), fun b hpc => (by cases hpc)⟩
  | call =>
    cases hs
    have mono : ∀ q, Issued s q → Issued (p.IsAlive s) q := by
      intro q hq
      simp only [Issued, Prob.IsAlive, List.map_append, List.mem_append]
      exact Or.inl hq
    refine ⟨?_, ?_, ?_⟩
    · intro x hx
      rcases List.mem_append.mp hx with h | h
      · exact mono x (hsend x h)
      · rw [List.mem_singleton.mp h]
        simp [Issued, Prob.IsAlive]
    · intro r hr q
      exact ⟨fun hpc => mono q ((hresp r hr q).1 hpc),
        fun b hpc => mono q ((hresp r hr q).2 b hpc)⟩
    · intro c hc b q ho
      rcases List.mem_append.mp hc with h | h
      · exact mono q (hcalls c h b q ho)
      · rw [List.mem_singleton.mp h] at ho; cases ho
  | ask i j =>
    obtain ⟨ctx, services, hi, _, rfl⟩ := askRendezvous_some hs
    refine ⟨?_, ?_, hcalls⟩
    · intro x hx
      exact hsend x (List.mem_of_mem_eraseIdx hx)
    · intro r hr q
      rcases List.mem_or_eq_of_mem_set hr with h | h
      · exact hresp r h q
      · rw [h]
        refine ⟨fun hpc => ?_, fun b hpc => (by cases hpc)⟩
        cases hpc
        exact hsend ctx (List.getElem?_mem hi)
  | eval j =>
    obtain ⟨ctx, services, hj, rfl⟩ := loopBody_some hs
    refine ⟨hsend, ?_, hcalls⟩
    intro r hr q
    rcases List.mem_or_eq_of_mem_set hr with h | h
    · exact hresp r h q
    · rw [h]
      refine ⟨fun hpc => (by cases hpc), fun b hpc => ?_⟩
      cases hpc
      exact (hresp _ (List.getElem?_mem hj) ctx).1 rfl
  | respond j c =>
    obtain ⟨services, query, r, ctx, hj, hc, rfl⟩ := caseResp_some hs
    have hmap := map_ctx_set s.calls c ⟨ctx, .waiting⟩ (.received r query) hc
    have same : ∀ q, Issued s q → Issued
        { s with responders := s.responders.set j ⟨services, .recvAsk⟩,
                 calls := s.calls.set c ⟨ctx, .received r query⟩ } q := by
      intro q hq
      simp only [Issued] at hq ⊢
      rw [hmap]
      exact hq
    refine ⟨fun x hx => same x (hsend x hx), ?_, ?_⟩
    · intro r' hr q
      rcases List.mem_or_eq_of_mem_set hr with h | h
      · exact ⟨fun hpc => same q ((hresp r' h q).1 hpc),
          fun b hpc => same q ((hresp r' h q).2 b hpc)⟩
      · rw [h]
        exact ⟨fun hpc => (by cases hpc), fun b hpc => (by cases hpc)⟩
    · intro c' hc' b q ho
      rcases List.mem_or_eq_of_mem_set hc' with h | h
      · exact same q (hcalls c' h b q ho)
      · rw [h] at ho
        cases ho
        exact same query ((hresp _ (List.getElem?_mem hj) query).2 r rfl)
  | timeout c =>
    obtain ⟨ctx, hc, _, rfl⟩ := caseDone_some hs
    have hmap := map_ctx_set s.calls c ⟨ctx, .waiting⟩ .timedOut hc
    have same : ∀ q, Issued s q →
        Issued { s with calls := s.calls.set c ⟨ctx, .timedOut⟩ } q := by
      intro q hq
      simp only [Issued] at hq ⊢
      rw [hmap]
      exact hq
    refine ⟨fun x hx => same x (hsend x hx), ?_, ?_⟩
    · intro r hr q
      exact ⟨fun hpc => same q ((hresp r hr q).1 hpc),
        fun b hpc => same q ((hresp r hr q).2 b hpc)⟩
    · intro c' hc' b q ho
      rcases List.mem_or_eq_of_mem_set hc' with h | h
      · exact same q (hcalls c' h b q ho)
      · rw [h] at ho; cases ho

theorem inFlight_init (w : σ) : InFlight (State.init w) := by
  refine ⟨?_, ?_, ?_⟩
  · intro x hx; cases hx
  · intro r hr; cases hr
  · intro c hc; cases hc

theorem inFlight_run {p : Prob} (w : σ) (es : List (Event σ)) (s : State σ)
    (hrun : run p (State.init w) es = some s) : InFlight s :=
  run_induction InFlight (fun _ => True) (fun t e t' _ hI ht => inFlight_step t e t' hI ht)
    (fun _ _ => trivial) (inFlight_init w) hrun

end pairing

section paired

variable {σ : Type}

theorem paired_step {p : Prob} (n : Nat) (ctx : Context) (s : State σ) (e : Event σ)
    (s' : State σ) (he : e.isCall = false) (hI : Paired n ctx s)
    (hs : step p s e = some s') : Paired n ctx s' := by
  obtain ⟨hsend, hresp, hwait, hown⟩ := hI
  cases e with
  | tick =>
    cases hs
    exact ⟨hsend, hresp, hwait, hown⟩
  | watch services =>
    cases hs
    refine ⟨hsend, ?_, hwait, hown⟩
    intro r hr q
    rcases List.mem_append.mp hr with h | h
    · exact hresp r h q
    · rw [List.mem_singleton.mp h]
      exact ⟨fun hpc => (by cases hpc), fun b hpc => (by cases hpc)⟩
  | call => cases he
  | ask i j =>
    obtain ⟨x, services, hi, _, rfl⟩ := askRendezvous_some hs
    refine ⟨fun y hy => hsend y (List.mem_of_mem_eraseIdx hy), ?_, hwait, hown⟩
    intro r hr q
    rcases List.mem_or_eq_of_mem_set hr with h | h
    · exact hresp r h q
    · rw [h]
      refine ⟨fun hpc => ?_, fun b hpc => (by cases hpc)⟩
      cases hpc
      exact hsend x (List.getElem?_mem hi)
  | eval j =>
    obtain ⟨x, services, hj, rfl⟩ := loopBody_some hs
    refine ⟨hsend, ?_, hwait, hown⟩
    intro r hr q
    rcases List.mem_or_eq_of_mem_set hr with h | h
    · exact hresp r h q
    · rw [h]
      refine ⟨fun hpc => (by cases hpc), fun b hpc => ?_⟩
      cases hpc
      exact (hresp _ (List.getElem?_mem hj) x).1 rfl
  | respond j c =>
    obtain ⟨services, query, r, x, hj, hc, rfl⟩ := caseResp_some hs
    have hcn : c = n := hwait c _ hc rfl
    have hq : query = ctx := (hresp _ (List.getElem?_mem hj) query).2 r rfl
    have hx : x = ctx := (hown _ (hcn ▸ hc)).1
    refine ⟨hsend, ?_, ?_, ?_⟩
    · intro r' hr q
      rcases List.mem_or_eq_of_mem_set hr with h | h
      · exact hresp r' h q
      · rw [h]
        exact ⟨fun hpc => (by cases hpc), fun b hpc => (by cases hpc)⟩
    · intro i c' hi hw
      simp only [List.getElem?_set] at hi
      split at hi
      · split at hi
        · cases hi
          cases hw
        · cases hi
      · exact hwait i c' hi hw
    · intro c' hc'
      have hlt : c < s.calls.length := (List.getElem?_eq_some.mp hc).1
      subst hcn
      rw [List.getElem?_set_self hlt] at hc'
      cases hc'
      refine ⟨hx, fun b q ho => ?_⟩
      cases ho
      exact hq
  | timeout c =>
    obtain ⟨x, hc, _, rfl⟩ := caseDone_some hs
    have hcn : c = n := hwait c _ hc rfl
    have hx : x = ctx := (hown _ (hcn ▸ hc)).1
    refine ⟨hsend, hresp, ?_, ?_⟩
    · intro i c' hi hw
      simp only [List.getElem?_set] at hi
      split at hi
      · split at hi
        · cases hi
          cases hw
        · cases hi
      · exact hwait i c' hi hw
    · intro c' hc'
      have hlt : c < s.calls.length := (List.getElem?_eq_some.mp hc).1
      subst hcn
      rw [List.getElem?_set_self hlt] at hc'
      cases hc'
      exact ⟨hx, fun b q ho => (by cases ho)⟩

/-- A call made on a quiescent probe is the only one that can be served. -/
theorem paired_of_quiescent (p : Prob) (s : State σ) (hq : s.quiescent) :
    Paired s.calls.length (WithTimeout s.calls.length s.now p.timeout) (p.IsAlive s) := by
  obtain ⟨hsend, hresp, hcalls⟩ := hq
  refine ⟨?_, ?_, ?_, ?_⟩
  · intro x hx
    simpa [Prob.IsAlive, hsend] using hx
  · intro r hr q
    have h := hresp r hr
    exact ⟨fun hpc => (by rw [h] at hpc; cases hpc), fun b hpc => (by rw [h] at hpc; cases hpc)⟩
  · intro i c hi hw
    simp only [Prob.IsAlive] at hi
    rcases Nat.lt_trichotomy i s.calls.length with hlt | heq | hgt
    · rw [List.getElem?_append_left hlt] at hi
      exact absurd hw (hcalls c (List.getElem?_mem hi))
    · exact heq
    · rw [List.getElem?_eq_none (by simp; omega)] at hi
      cases hi
  · intro c hc
    simp only [Prob.IsAlive, List.getElem?_concat_length] at hc
    cases hc
    exact ⟨rfl, fun b q ho => (by cases ho)⟩

/-- Whatever happens after a call made on a quiescent probe, as long as no other call is
made, an answer this call receives was computed for its own query. -/
theorem paired_run {p : Prob} (s : State σ) (hq : s.quiescent) (es : List (Event σ))
    (s' : State σ) (hes : ∀ e ∈ es, e.isCall = false)
    (hrun : run p s (.call :: es) = some s') :
    Paired s.calls.length (WithTimeout s.calls.length s.now p.timeout) s' := by
  obtain ⟨t, ht, hrest⟩ := run_cons_some hrun
  cases ht
  exact run_induction (Paired s.calls.length (WithTimeout s.calls.length s.now p.timeout))
    (fun e => e.isCall = false)
    (fun t e t' he hI hs => paired_step _ _ t e t' he hI hs) hes
    (paired_of_quiescent p s hq) hrest

end paired

section rounds

variable {σ : Type}

/-- The direct round trip on an idle probe with one responder: the call receives the
value of the loop body at its own query, and the probe is idle again. -/
theorem roundTrip_run (p : Prob) (s : State σ) (services : List (Servicer σ))
    (hr : s.responders = [⟨services, .recvAsk⟩]) (hs : s.senders = []) :
    run p s (roundTrip s.calls.length) = some
      { now := s.now,
        world := (Watch.evaluate services (WithTimeout s.calls.length s.now p.timeout) s.world).2,
        responders := [⟨services, .recvAsk⟩],
        senders := [],
        calls := s.calls ++ [⟨WithTimeout s.calls.length s.now p.timeout,
          .received
            (Watch.evaluate services (WithTimeout s.calls.length s.now p.timeout) s.world).1
            (WithTimeout s.calls.length s.now p.timeout)⟩] } := by
  obtain ⟨now, world, responders, senders, calls⟩ := s
  simp only at hr hs
  subst hr hs
  simp [roundTrip, run, step, Prob.IsAlive, askRendezvous, Watch.loopBody, IsAlive.caseResp]

/-- Successive round trips with pure targets: each call holds the conjunction at its own
query, and clock, world, responder and pending sends are as before. -/
theorem roundTrips_run (p : Prob) (fs : List (Context → Bool)) (n : Nat) (s : State σ)
    (hr : s.responders = [⟨fs.map Servicer.pure, .recvAsk⟩]) (hs : s.senders = []) :
    run p s (roundTrips s.calls.length n) = some
      { s with calls := s.calls ++ (List.range' s.calls.length n).map (answered p fs s.now) } := by
  induction n generalizing s with
  | zero =>
    simp [roundTrips, run]
  | succ n ih =>
    rw [roundTrips, run_append, roundTrip_run p s _ hr hs]
    simp only [Option.some_bind, evaluate_pure]
    have h := ih
      { now := s.now, world := s.world,
        responders := [⟨fs.map Servicer.pure, .recvAsk⟩], senders := [],
        calls := s.calls ++ [answered p fs s.now s.calls.length] } rfl rfl
    simp only [List.length_append, List.length_singleton] at h
    simp only [answered] at h ⊢
    rw [h]
    obtain ⟨now, world, responders, senders, calls⟩ := s
    simp only at hr hs
    subst hr hs
    simp [List.range'_succ, answered]

end rounds

section exits

variable {σ : Type}

/-- The deadline case is enabled for a waiting call whose deadline has passed. -/
theorem caseDone_enabled (s : State σ) (i : Nat) (ctx : Context)
    (hc : s.calls[i]? = some ⟨ctx, .waiting⟩) (hd : ctx.deadline ≤ s.now) :
    IsAlive.caseDone s i = some { s with calls := s.calls.set i ⟨ctx, .timedOut⟩ } := by
  unfold IsAlive.caseDone
  rw [hc]
  simp [Context.Done, hd]

/-- The loop body is enabled for a responder that holds a query. -/
theorem loopBody_enabled (s : State σ) (j : Nat) (services : List (Servicer σ))
    (ctx : Context) (hj : s.responders[j]? = some ⟨services, .evaluating ctx⟩) :
    Watch.loopBody s j = some
      { s with world := (Watch.evaluate services ctx s.world).2,
               responders := s.responders.set j
                 ⟨services, .sendResp ctx (Watch.evaluate services ctx s.world).1⟩ } := by
  unfold Watch.loopBody
  rw [hj]

/-- Without a response delivered to it, call `i` has not received anything. -/
theorem notReceived_step {p : Prob} (i : Nat) (s : State σ) (e : Event σ) (s' : State σ)
    (he : e.respondsTo i = false)
    (hI : ∀ c, s.calls[i]? = some c → c.outcome = .waiting ∨ c.outcome = .timedOut)
    (hs : step p s e = some s') :
    ∀ c, s'.calls[i]? = some c → c.outcome = .waiting ∨ c.outcome = .timedOut := by
  cases e with
  | tick => cases hs; exact hI
  | watch services => cases hs; exact hI
  | call =>
    cases hs
    intro c hc
    simp only [Prob.IsAlive, List.getElem?_append] at hc
    split at hc
    · exact hI c hc
    · have hmem := List.getElem?_mem hc
      rw [List.mem_singleton.mp hmem]
      exact Or.inl rfl
  | ask a b =>
    obtain ⟨_, _, _, _, rfl⟩ := askRendezvous_some hs
    exact hI
  | eval j =>
    obtain ⟨_, _, _, rfl⟩ := loopBody_some hs
    exact hI
  | respond j c =>
    obtain ⟨services, query, r, ctx, _, _, rfl⟩ := caseResp_some hs
    have hne : c ≠ i := by simpa [Event.respondsTo] using he
    intro c' hc'
    simp only [List.getElem?_set_ne hne] at hc'
    exact hI c' hc'
  | timeout c =>
    obtain ⟨ctx, hc, _, rfl⟩ := caseDone_some hs
    intro c' hc'
    by_cases hci : c = i
    · subst hci
      rw [List.getElem?_set_self (List.getElem?_eq_some.mp hc).1] at hc'
      cases hc'
      exact Or.inr rfl
    · simp only [List.getElem?_set_ne hci] at hc'
      exact hI c' hc'

/-- As long as neither case of its `select` fires, call `i` keeps waiting. -/
theorem stillWaiting_step {p : Prob} (i : Nat) (ctx : Context) (s : State σ) (e : Event σ)
    (s' : State σ) (he : e.returns i = false)
    (hI : s.calls[i]? = some ⟨ctx, .waiting⟩) (hs : step p s e = some s') :
    s'.calls[i]? = some ⟨ctx, .waiting⟩ := by
  cases e with
  | tick => cases hs; exact hI
  | watch services => cases hs; exact hI
  | call =>
    cases hs
    simp only [Prob.IsAlive]
    rw [List.getElem?_append_left (List.getElem?_eq_some.mp hI).1]
    exact hI
  | ask a b =>
    obtain ⟨_, _, _, _, rfl⟩ := askRendezvous_some hs
    exact hI
  | eval j =>
    obtain ⟨_, _, _, rfl⟩ := loopBody_some hs
    exact hI
  | respond j c =>
    obtain ⟨services, query, r, x, _, _, rfl⟩ := caseResp_some hs
    have hne : c ≠ i := by simpa [Event.returns] using he
    simp only [List.getElem?_set_ne hne]
    exact hI
  | timeout c =>
    obtain ⟨x, _, _, rfl⟩ := caseDone_some hs
    have hne : c ≠ i := by simpa [Event.returns] using he
    simp only [List.getElem?_set_ne hne]
    exact hI

/-- Time can always pass: `k` ticks run from every state and only move the clock. -/
theorem ticks_run (p : Prob) (s : State σ) (k : Nat) :
    run p s (List.replicate k .tick) = some { s with now := s.now + k } := by
  induction k generalizing s with
  | zero => simp [run]
  | succ k ih =>
    rw [List.replicate_succ, run_cons]
    simp only [step, Option.some_bind]
    rw [ih]
    simp only [Nat.cast_add, Nat.cast_one]
    congr 2
    omega

/-- The clock never goes back. -/
theorem now_step {p : Prob} (s : State σ) (e : Event σ) (s' : State σ)
    (hs : step p s e = some s') : s.now ≤ s'.now := by
  cases e with
  | tick => cases hs; simp
  | watch services => cases hs; exact le_refl _
  | call => cases hs; exact le_refl _
  | ask a b =>
    obtain ⟨_, _, _, _, rfl⟩ := askRendezvous_some hs
    exact le_refl _
  | eval j =>
    obtain ⟨_, _, _, rfl⟩ := loopBody_some hs
    exact le_refl _
  | respond j c =>
    obtain ⟨_, _, _, _, _, _, rfl⟩ := caseResp_some hs
    exact le_refl _
  | timeout c =>
    obtain ⟨_, _, _, rfl⟩ := caseDone_some hs
    exact le_refl _

/-- A call, once made, stays in the list of calls with its context. -/
theorem call_persists_step {p : Prob} (i : Nat) (ctx : Context) (s : State σ) (e : Event σ)
    (s' : State σ) (hI : ∃ o, s.calls[i]? = some ⟨ctx, o⟩) (hs : step p s e = some s') :
    ∃ o, s'.calls[i]? = some ⟨ctx, o⟩ := by
  obtain ⟨o, ho⟩ := hI
  cases e with
  | tick => cases hs; exact ⟨o, ho⟩
  | watch services => cases hs; exact ⟨o, ho⟩
  | call =>
    cases hs
    refine ⟨o, ?_⟩
    simp only [Prob.IsAlive]
    rw [List.getElem?_append_left (List.getElem?_eq_some.mp ho).1]
    exact ho
  | ask a b =>
    obtain ⟨_, _, _, _, rfl⟩ := askRendezvous_some hs
    exact ⟨o, ho⟩
  | eval j =>
    obtain ⟨_, _, _, rfl⟩ := loopBody_some hs
    exact ⟨o, ho⟩
  | respond j c =>
    obtain ⟨services, query, r, x, _, hc, rfl⟩ := caseResp_some hs
    by_cases hci : c = i
    · subst hci
      rw [ho] at hc
      cases hc
      exact ⟨_, List.getElem?_set_self (List.getElem?_eq_some.mp ho).1⟩
    · exact ⟨o, by simp only [List.getElem?_set_ne hci]; exact ho⟩
  | timeout c =>
    obtain ⟨x, hc, _, rfl⟩ := caseDone_some hs
    by_cases hci : c = i
    · subst hci
      rw [ho] at hc
      cases hc
      exact ⟨_, List.getElem?_set_self (List.getElem?_eq_some.mp ho).1⟩
    · exact ⟨o, by simp only [List.getElem?_set_ne hci]; exact ho⟩

theorem trajectory_succ (p : Prob) (s : State σ) (ev : Nat → Event σ) (k : Nat) :
    step p (trajectory p s ev k) (ev k) = some (trajectory p s ev (k + 1)) ∨
    (step p (trajectory p s ev k) (ev k) = none ∧
      trajectory p s ev (k + 1) = trajectory p s ev k) := by
  cases h : step p (trajectory p s ev k) (ev k) with
  | none => exact Or.inr ⟨rfl, by simp only [trajectory, h]⟩
  | some t => exact Or.inl (by simp only [trajectory, h])

theorem trajectory_now (p : Prob) (s : State σ) (ev : Nat → Event σ) (k m : Nat)
    (hkm : k ≤ m) : (trajectory p s ev k).now ≤ (trajectory p s ev m).now := by
  induction m with
  | zero =>
    have : k = 0 := by omega
    subst this
    exact le_refl _
  | succ m ih =>
    rcases Nat.lt_or_ge k (m + 1) with hlt | hge
    · have h1 := ih (by omega)
      rcases trajectory_succ p s ev m with h | ⟨_, h⟩
      · exact le_trans h1 (now_step _ _ _ h)
      · rw [h]; exact h1
    · have : k = m + 1 := by omega
      subst this
      exact le_refl _

theorem trajectory_call (p : Prob) (s : State σ) (ev : Nat → Event σ) (i : Nat)
    (ctx : Context) (h0 : ∃ o, s.calls[i]? = some ⟨ctx, o⟩) (k : Nat) :
    ∃ o, (trajectory p s ev k).calls[i]? = some ⟨ctx, o⟩ := by
  induction k with
  | zero => exact h0
  | succ k ih =>
    rcases trajectory_succ p s ev k with h | ⟨_, h⟩
    · exact call_persists_step i ctx _ _ _ ih h
    · rw [h]; exact ih

/-- On an unending schedule on which the clock reaches the deadline of call `i` and the
deadline case of its `select` gets a turn again and again, the call returns, whatever the
other goroutines do. -/
theorem fair_call_returns (p : Prob) (s : State σ) (ev : Nat → Event σ) (i : Nat)
    (ctx : Context) (h0 : s.calls[i]? = some ⟨ctx, .waiting⟩)
    (htime : ∃ k, ctx.deadline ≤ (trajectory p s ev k).now)
    (hfair : ∀ k, ∃ m, k ≤ m ∧ ev m = .timeout i) :
    ∃ k c, (trajectory p s ev k).calls[i]? = some c ∧ c.outcome ≠ .waiting := by
  obtain ⟨k0, hk0⟩ := htime
  obtain ⟨m, hm, hev⟩ := hfair k0
  obtain ⟨o, ho⟩ := trajectory_call p s ev i ctx ⟨_, h0⟩ m
  by_cases hw : o = .waiting
  · subst hw
    have hd : ctx.deadline ≤ (trajectory p s ev m).now :=
      le_trans hk0 (trajectory_now p s ev k0 m hm)
    have hstep : step p (trajectory p s ev m) (ev m) =
        some { trajectory p s ev m with
          calls := (trajectory p s ev m).calls.set i ⟨ctx, .timedOut⟩ } := by
      rw [hev]
      exact caseDone_enabled _ i ctx ho hd
    refine ⟨m + 1, ⟨ctx, .timedOut⟩, ?_, fun h => by cases h⟩
    simp only [trajectory, hstep]
    exact List.getElem?_set_self (List.getElem?_eq_some.mp ho).1
  · exact ⟨m, _, ho, hw⟩

end exits

/-- Target `i` is among those the loop invokes exactly when all targets before it report
true. -/
theorem lt_invoked_iff (fs : List (Context → Bool)) (ctx : Context) (i : Nat)
    (hi : i < fs.length) :
    i < invoked fs ctx ↔ (fs.take i).all (fun f => f ctx) = true := by
  induction fs generalizing i with
  | nil => simp at hi
  | cons f rest ih =>
    cases hf : f ctx with
    | true =>
      rw [invoked_cons_true f rest ctx hf]
      cases i with
      | zero => simp
      | succ i =>
        have hi' : i < rest.length := by simpa using hi
        simp [ih i hi', hf]
    | false =>
      rw [invoked_cons_false f rest ctx hf]
      cases i with
      | zero => simp
      | succ i => simp [hf]

/-! ## The responder: conjunction and evaluation order -/

/-- C1, conjunction law of the responder.  `Watch` registers the pure boolean targets `fs`.
In every execution, a responder that holds a query `q` can finish its evaluation, and the
value it then has to send on the response channel is the conjunction of `f q` over all
registered targets `f`, each called with that same context `q`; every value a responder
is sending and every value a call has received is that conjunction at the query it was
computed for. -/
theorem responder_sends_conjunction {σ : Type} (p : Prob) (fs : List (Context → Bool))
    (w : σ) (es : List (Event σ)) (s : State σ)
    (hes : ∀ e ∈ es, e.isWatch = false)
    (hrun : run p (State.init w) (.watch (fs.map Servicer.pure) :: es) = some s) :
    (∀ j services q, s.responders[j]? = some ⟨services, .evaluating q⟩ →
      ∃ s', step p s (.eval j) = some s' ∧ s'.world = s.world ∧
        s'.responders[j]? =
          some ⟨fs.map Servicer.pure, .sendResp q (fs.all (fun f => f q))⟩) ∧
    (∀ r ∈ s.responders, ∀ q b, r.pc = .sendResp q b → b = fs.all (fun f => f q)) ∧
    (∀ c ∈ s.calls, ∀ b q, c.outcome = .received b q → b = fs.all (fun f => f q)) := by
  have hinv := answers_run (p := p) (P := fun q b => b = fs.all (fun f => f q))
    (fs.map Servicer.pure) (fun ctx w' => by rw [evaluate_pure]) w es s hes hrun
  obtain ⟨hreg, hresp, hcalls⟩ := hinv
  refine ⟨?_, hresp, hcalls⟩
  intro j services q hj
  have hsv : services = fs.map Servicer.pure := hreg _ (List.getElem?_mem hj)
  subst hsv
  refine ⟨_, loopBody_enabled s j _ q hj, ?_, ?_⟩
  · simp [evaluate_pure]
  · simp only [evaluate_pure]
    exact List.getElem?_set_self (List.getElem?_eq_some.mp hj).1

/-- C1 at a concrete input: two pure targets, one always alive and one alive for the
query with identity 0 only; the responder holds the query of the first call. -/
theorem responder_sends_conjunction_witness :
    (run (NewProbe 500) (State.init ())
      (.watch ([fun _ => true, fun q => decide (q.id = 0)].map Servicer.pure) ::
        [.call, .ask 0 0])).isSome = true ∧
    ∃ s', step (NewProbe 500)
        { now := 0, world := (),
          responders := [⟨[fun _ => true, fun q => decide (q.id = 0)].map Servicer.pure,
            .evaluating ⟨0, 500⟩⟩],
          senders := [], calls := [⟨⟨0, 500⟩, .waiting⟩] } (.eval 0) = some s' ∧
      s'.world = () ∧
      s'.responders[0]? =
        some ⟨[fun _ => true, fun q => decide (q.id = 0)].map Servicer.pure,
          .sendResp ⟨0, 500⟩ true⟩ :=
  ⟨rfl, (responder_sends_conjunction (NewProbe 500)
    [fun _ => true, fun q => decide (q.id = 0)] () [.call, .ask 0 0]
    { now := 0, world := (),
      responders := [⟨[fun _ => true, fun q => decide (q.id = 0)].map Servicer.pure,
        .evaluating ⟨0, 500⟩⟩],
      senders := [], calls := [⟨⟨0, 500⟩, .waiting⟩] }
    (by simp [Event.isWatch]) rfl).1 0 _ ⟨0, 500⟩ rfl⟩

/-- C2.  Every target of `services` reports true.  Then the direct round trip of a call
(query handed over, targets evaluated, response received) returns `true`, the response
arriving before the deadline when the timeout is positive; and in every execution with
`Watch(services...)` active, a call that got its response returned `true`. -/
theorem all_true_answered_true {σ : Type} (p : Prob) (services : List (Servicer σ)) (w : σ)
    (htrue : ∀ service ∈ services, ∀ ctx w', (service.IsAlive ctx w').1 = true)
    (es : List (Event σ)) (s : State σ)
    (hes : ∀ e ∈ es, e.isWatch = false)
    (hrun : run p (State.init w) (.watch services :: es) = some s) :
    (∃ t, run p (State.init w) (.watch services :: roundTrip 0) = some t ∧
      t.results = [some true] ∧
      (0 < p.timeout → ∀ c ∈ t.calls, t.now < c.ctx.deadline)) ∧
    (∀ c ∈ s.calls, ∀ b q, c.outcome = .received b q → c.result = some true) := by
  have hev : ∀ ctx w', (Watch.evaluate services ctx w').1 = true := fun ctx w' =>
    evaluate_of_true services ctx w' (fun service hs w'' => htrue service hs ctx w'')
  constructor
  · have h := roundTrip_run p (Prob.Watch (State.init w) services) services rfl rfl
    exact ⟨_, h, by simp [State.results, Call.result, hev, Prob.Watch, State.init],
      by simp [Prob.Watch, State.init, WithTimeout]⟩
  · have hinv := answers_run (p := p) (P := fun _ b => b = true) services hev w es s hes hrun
    intro c hc b q ho
    have hb := hinv.2.2 c hc b q ho
    simp [Call.result, ho, hb]

/-- C2 at the scenario of the specification: timeout 500, two targets that both return
true at once. -/
theorem all_true_answered_true_witness :
    (∃ t, run (NewProbe 500) (State.init ())
        (.watch [Servicer.pure (fun _ => true), Servicer.pure (fun _ => true)] ::
          roundTrip 0) = some t ∧ t.results = [some true] ∧
        ((0 : Int) < (NewProbe 500).timeout → ∀ c ∈ t.calls, t.now < c.ctx.deadline)) ∧
    Call.result ⟨⟨0, 500⟩, .received true ⟨0, 500⟩⟩ = some true :=
  ⟨(all_true_answered_true (NewProbe 500)
      [Servicer.pure (fun _ => true), Servicer.pure (fun _ => true)] ()
      (by simp [Servicer.pure])
      (roundTrip 0)
      { now := 0, world := (),
        responders := [⟨[Servicer.pure (fun _ => true), Servicer.pure (fun _ => true)],
          .recvAsk⟩],
        senders := [], calls := [⟨⟨0, 500⟩, .received true ⟨0, 500⟩⟩] }
      (by simp [roundTrip, Event.isWatch]) rfl).1,
   (all_true_answered_true (NewProbe 500)
      [Servicer.pure (fun _ => true), Servicer.pure (fun _ => true)] ()
      (by simp [Servicer.pure])
      (roundTrip 0)
      { now := 0, world := (),
        responders := [⟨[Servicer.pure (fun _ => true), Servicer.pure (fun _ => true)],
          .recvAsk⟩],
        senders := [], calls := [⟨⟨0, 500⟩, .received true ⟨0, 500⟩⟩] }
      (by simp [roundTrip, Event.isWatch]) rfl).2 _ (List.mem_singleton.mpr rfl) true
        ⟨0, 500⟩ rfl⟩

/-- The conjunction over a list with a target that is false at `ctx` is false. -/
theorem all_false_of_mem (fs : List (Context → Bool)) (ctx : Context) (g : Context → Bool)
    (hg : g ∈ fs) (hfalse : g ctx = false) : fs.all (fun f => f ctx) = false := by
  rw [Bool.eq_false_iff]
  intro h
  rw [List.all_eq_true] at h
  have := h g hg
  rw [hfalse] at this
  cases this

/-- A call that returned holds `false` when every answer in the state is `false`. -/
theorem result_false_of_answers {σ : Type} (s : State σ)
    (h : Answers (fun _ b => b = false) s) :
    ∀ c ∈ s.calls, ∀ b, c.result = some b → b = false := by
  intro c hc b hb
  unfold Call.result at hb
  split at hb
  · cases hb
  · cases hb; rfl
  · next r q ho =>
    cases hb
    exact h.2 c hc _ q ho

/-- C3.  The registered list `fs'` is any ordering of `fs`.  If some target of `fs` is
false at a query, the loop body yields false at that query whatever the order; and if
some target is false at every query, the direct round trip of a call returns `false`
and, in every execution with `Watch` active on `fs'`, every call that returned, returned
`false`. -/
theorem any_false_every_order_false {σ : Type} (p : Prob) (fs fs' : List (Context → Bool))
    (w : σ) (hperm : fs'.Perm fs) (f : Context → Bool) (hf : f ∈ fs)
    (hfalse : ∀ ctx, f ctx = false) (es : List (Event σ)) (s : State σ)
    (hes : ∀ e ∈ es, e.isWatch = false)
    (hrun : run p (State.init w) (.watch (fs'.map Servicer.pure) :: es) = some s) :
    (∀ ctx (w' : σ) g, g ∈ fs → g ctx = false →
      Watch.evaluate (fs'.map Servicer.pure) ctx w' = (false, w')) ∧
    (∃ t, run p (State.init w) (.watch (fs'.map Servicer.pure) :: roundTrip 0) = some t ∧
      t.results = [some false]) ∧
    (∀ c ∈ s.calls, ∀ b, c.result = some b → b = false) := by
  have hloop : ∀ ctx (w' : σ) g, g ∈ fs → g ctx = false →
      Watch.evaluate (fs'.map Servicer.pure) ctx w' = (false, w') := by
    intro ctx w' g hg hgf
    rw [evaluate_pure, all_false_of_mem fs' ctx g (hperm.mem_iff.mpr hg) hgf]
  refine ⟨hloop, ?_, ?_⟩
  · have h := roundTrip_run p (Prob.Watch (State.init w) (fs'.map Servicer.pure)) _ rfl rfl
    exact ⟨_, h, by
      simp [State.results, Call.result, Prob.Watch, State.init, hloop _ _ f hf (hfalse _)]⟩
  · have hinv := answers_run (p := p) (P := fun _ b => b = false) (fs'.map Servicer.pure)
      (fun ctx w' => by rw [hloop ctx w' f hf (hfalse ctx)]) w es s hes hrun
    exact result_false_of_answers s hinv.2

/-- C3 at the scenario of the specification: timeout 500, two targets, one true and one
false, registered in the other order, with the direct round trip as the execution. -/
theorem any_false_every_order_false_witness :
    (∃ t, run (NewProbe 500) (State.init ())
        (.watch ([fun _ => false, fun _ => true].map Servicer.pure) :: roundTrip 0) = some t ∧
      t.results = [some false]) ∧
    Watch.evaluate ([fun _ => false, fun _ => true].map Servicer.pure) ⟨0, 500⟩ () =
      (false, ()) :=
  ⟨(any_false_every_order_false (NewProbe 500) [fun _ => true, fun _ => false]
      [fun _ => false, fun _ => true] () (List.Perm.swap _ _ _) (fun _ => false)
      (by simp) (fun _ => rfl) (roundTrip 0)
      { now := 0, world := (),
        responders := [⟨[fun _ => false, fun _ => true].map Servicer.pure, .recvAsk⟩],
        senders := [], calls := [⟨⟨0, 500⟩, .received false ⟨0, 500⟩⟩] }
      (by simp [roundTrip, Event.isWatch]) rfl).2.1,
   (any_false_every_order_false (NewProbe 500) [fun _ => true, fun _ => false]
      [fun _ => false, fun _ => true] () (List.Perm.swap _ _ _) (fun _ => false)
      (by simp) (fun _ => rfl) (roundTrip 0)
      { now := 0, world := (),
        responders := [⟨[fun _ => false, fun _ => true].map Servicer.pure, .recvAsk⟩],
        senders := [], calls := [⟨⟨0, 500⟩, .received false ⟨0, 500⟩⟩] }
      (by simp [roundTrip, Event.isWatch]) rfl).1 ⟨0, 500⟩ () (fun _ => false)
        (by simp) rfl⟩

/-- C4 fails as stated: with a first target that reports false and a second one that
would report true, the loop invokes the first target once and the second one not at
all, so it is not the case that every registered target is invoked exactly once. -/
theorem short_circuit_skips_later_target :
    Watch.evaluate (loggedFrom 0 [fun _ => false, fun _ => true]) ⟨0, 500⟩ [] = (false, [0]) ∧
    ¬ (∀ i, i < 2 →
      (Watch.evaluate (loggedFrom 0 [fun _ => false, fun _ => true]) ⟨0, 500⟩ []).2.count i
        = 1) := by
  refine ⟨rfl, ?_⟩
  intro h
  have h1 := h 1 (by decide)
  revert h1
  decide

/-- C4 as amended.  For every list of registered targets and every query the loop
invokes the targets in registration order up to and including the first one that reports
false: target `i` is invoked exactly once when every target before it reported true, and
not at all otherwise; the value is the conjunction all the same. -/
theorem evaluate_invokes_until_first_false (fs : List (Context → Bool)) (ctx : Context)
    (i : Nat) (hi : i < fs.length) :
    Watch.evaluate (loggedFrom 0 fs) ctx [] =
      (fs.all (fun f => f ctx), List.range (invoked fs ctx)) ∧
    (Watch.evaluate (loggedFrom 0 fs) ctx []).2.count i =
      if (fs.take i).all (fun f => f ctx) then 1 else 0 := by
  have h : Watch.evaluate (loggedFrom 0 fs) ctx [] =
      (fs.all (fun f => f ctx), List.range (invoked fs ctx)) := by
    have := foldl_evaluate_logged fs ctx 0 []
    simpa [Watch.evaluate, List.range_eq_range'] using this
  refine ⟨h, ?_⟩
  rw [h]
  simp only
  rw [List.count_eq_of_nodup (List.nodup_range _)]
  by_cases hlt : i < invoked fs ctx
  · rw [if_pos (List.mem_range.mpr hlt), if_pos ((lt_invoked_iff fs ctx i hi).mp hlt)]
  · have hne : ¬ ((fs.take i).all (fun f => f ctx) = true) :=
      fun h' => hlt ((lt_invoked_iff fs ctx i hi).mpr h')
    rw [if_neg (fun h' => hlt (List.mem_range.mp h')), if_neg hne]

/-- C4 as amended, at three targets of which the second reports false: the third one,
at position 2, is not invoked. -/
theorem evaluate_invokes_until_first_false_witness :
    2 < [fun _ => true, fun _ => false, fun (_ : Context) => true].length ∧
    (Watch.evaluate (loggedFrom 0 [fun _ => true, fun _ => false, fun _ => true])
      ⟨0, 500⟩ []).2.count 2 = 0 :=
  ⟨by decide, (evaluate_invokes_until_first_false
    [fun _ => true, fun _ => false, fun _ => true] ⟨0, 500⟩ 2 (by decide)).2⟩

/-! ## The caller: deadline and response -/

/-- A call to which no response is delivered at all returns only through the deadline
case: if it has returned, it returned `false`; while it waits, the deadline case is
enabled from the deadline on and makes it return `false`; and as long as no responder is
offering a value the response case is not enabled. -/
theorem unanswered_call_false {σ : Type} (p : Prob) (w : σ) (es : List (Event σ))
    (s : State σ) (i : Nat) (c : Call)
    (hrun : run p (State.init w) es = some s) (hc : s.calls[i]? = some c)
    (hno : ∀ e ∈ es, e.respondsTo i = false) :
    (∀ b, c.result = some b → b = false) ∧
    (c.outcome = .waiting → c.ctx.deadline ≤ s.now →
      ∃ s', step p s (.timeout i) = some s' ∧
        (s'.calls[i]?).map Call.result = some (some false)) ∧
    ((∀ r ∈ s.responders, ∀ q b, r.pc ≠ .sendResp q b) →
      ∀ j, step p s (.respond j i) = none) := by
  have hinv : ∀ c, s.calls[i]? = some c → c.outcome = .waiting ∨ c.outcome = .timedOut :=
    run_induction
      (fun t => ∀ c, t.calls[i]? = some c → c.outcome = .waiting ∨ c.outcome = .timedOut)
      (fun e => e.respondsTo i = false)
      (fun t e t' he hI ht => notReceived_step i t e t' he hI ht) hno
      (fun c h => by simp [State.init] at h) hrun
  constructor
  · intro b hb
    rcases hinv c hc with h | h
    · simp [Call.result, h] at hb
    · simp [Call.result, h] at hb
      exact hb
  constructor
  · intro hw hd
    obtain ⟨ctx, outcome⟩ := c
    simp only at hw hd
    subst hw
    refine ⟨_, caseDone_enabled s i ctx hc hd, ?_⟩
    simp only
    rw [List.getElem?_set_self (List.getElem?_eq_some.mp hc).1]
    rfl
  · intro hbusy j
    cases hstep : step p s (.respond j i) with
    | none => rfl
    | some t =>
      obtain ⟨services, query, r, _, hj, _, _⟩ := caseResp_some hstep
      exact absurd rfl (hbusy _ (List.getElem?_mem hj) query r)

/-- A call reaches its `select` from every state without waiting for anyone, keeps
waiting until one of its two cases fires, has its deadline case enabled from the
deadline on, returns `false` at the deadline when time is let pass up to it, and returns
on every unending schedule on which the clock reaches the deadline and the deadline
case gets a turn again and again. -/
theorem deadline_exit_available {σ : Type} (p : Prob) (s : State σ)
    (es : List (Event σ)) (s' : State σ)
    (hes : ∀ e ∈ es, e.returns s.calls.length = false)
    (hrun : run p s (.call :: es) = some s') :
    step p s .call = some (p.IsAlive s) ∧
    s'.calls[s.calls.length]? =
      some ⟨WithTimeout s.calls.length s.now p.timeout, .waiting⟩ ∧
    (s.now + p.timeout ≤ s'.now →
      ∃ t, step p s' (.timeout s.calls.length) = some t ∧
        (t.calls[s.calls.length]?).map Call.result = some (some false)) ∧
    (∃ t, run p s' (List.replicate (s.now + p.timeout - s'.now).toNat .tick ++
          [.timeout s.calls.length]) = some t ∧
        (t.calls[s.calls.length]?).map Call.result = some (some false) ∧
        t.now = max s'.now (s.now + p.timeout)) ∧
    (∀ ev : Nat → Event σ,
      (∃ k, s.now + p.timeout ≤ (trajectory p s' ev k).now) →
      (∀ k, ∃ m, k ≤ m ∧ ev m = .timeout s.calls.length) →
      ∃ k c, (trajectory p s' ev k).calls[s.calls.length]? = some c ∧
        c.outcome ≠ .waiting) := by
  obtain ⟨t0, ht0, hrest⟩ := run_cons_some hrun
  cases ht0
  have hwait : s'.calls[s.calls.length]? =
      some ⟨WithTimeout s.calls.length s.now p.timeout, .waiting⟩ :=
    run_induction
      (fun t => t.calls[s.calls.length]? =
        some ⟨WithTimeout s.calls.length s.now p.timeout, .waiting⟩)
      (fun e => e.returns s.calls.length = false)
      (fun t e t' he hI ht => stillWaiting_step _ _ t e t' he hI ht) hes
      (by simp [Prob.IsAlive]) hrest
  have hlt : s.calls.length < s'.calls.length := (List.getElem?_eq_some.mp hwait).1
  refine ⟨rfl, hwait, ?_, ?_, ?_⟩
  · intro hd
    refine ⟨_, caseDone_enabled s' _ _ hwait hd, ?_⟩
    simp only
    rw [List.getElem?_set_self hlt]
    rfl
  · rw [run_append, ticks_run]
    simp only [Option.some_bind, run_cons, run_nil, step]
    have hd : (WithTimeout s.calls.length s.now p.timeout).deadline ≤
        s'.now + ((s.now + p.timeout - s'.now).toNat : Int) := by
      simp only [WithTimeout]
      omega
    rw [caseDone_enabled { s' with now := s'.now + ((s.now + p.timeout - s'.now).toNat : Int) }
      _ _ hwait hd]
    refine ⟨_, rfl, ?_, ?_⟩
    · simp only
      rw [List.getElem?_set_self hlt]
      rfl
    · simp only
      omega
  · intro ev htime hfair
    exact fair_call_returns p s' ev _ _ hwait htime hfair

section served

variable {σ : Type}

/-- A property kept by every step that satisfies `ok` is kept by an execution along
which `ok` holds. -/
theorem run_induction_along {p : Prob} (ok : State σ → Event σ → Bool) (I : State σ → Prop)
    (hstep : ∀ s e s', ok s e = true → I s → step p s e = some s' → I s')
    {s s' : State σ} {es : List (Event σ)} (hok : holdsAlong p ok s es = true) (hI : I s)
    (hrun : run p s es = some s') : I s' := by
  induction es generalizing s with
  | nil => cases hrun; exact hI
  | cons e es ih =>
    obtain ⟨t, ht, hrest⟩ := run_cons_some hrun
    simp only [holdsAlong, ht, Bool.and_eq_true] at hok
    exact ih hok.2 (hstep s e t hok.1 hI ht) hrest

theorem holdsAlong_and {p : Prob} (ok1 ok2 : State σ → Event σ → Bool) (s : State σ)
    (es : List (Event σ)) (h1 : holdsAlong p ok1 s es = true)
    (h2 : holdsAlong p ok2 s es = true) :
    holdsAlong p (fun t e => ok1 t e && ok2 t e) s es = true := by
  induction es generalizing s with
  | nil => rfl
  | cons e es ih =>
    simp only [holdsAlong, Bool.and_eq_true] at h1 h2 ⊢
    refine ⟨⟨h1.1, h2.1⟩, ?_⟩
    cases hs : step p s e with
    | none => rfl
    | some t =>
      rw [hs] at h1 h2
      exact ih t h1.2 h2.2

/-- With a positive timeout, a `select` served at its deadline and no response delivered
up to the deadline, call `i` is waiting with its deadline not passed, or it has timed
out. -/
theorem deadlineWins_step {p : Prob} (i : Nat) (ht : 0 < p.timeout) (s : State σ)
    (e : Event σ) (s' : State σ)
    (hok : (servedAtDeadline i s e && notAnsweredByDeadline i s e) = true)
    (hI : ∀ c, s.calls[i]? = some c →
      (c.outcome = .waiting ∧ s.now ≤ c.ctx.deadline) ∨ c.outcome = .timedOut)
    (hs : step p s e = some s') :
    ∀ c, s'.calls[i]? = some c →
      (c.outcome = .waiting ∧ s'.now ≤ c.ctx.deadline) ∨ c.outcome = .timedOut := by
  rw [Bool.and_eq_true] at hok
  obtain ⟨hok1, hok2⟩ := hok
  cases e with
  | tick =>
    cases hs
    intro c hc
    rcases hI c hc with ⟨hw, _⟩ | hto
    · obtain ⟨ctx, o⟩ := c
      simp only at hw
      subst hw
      have hlt : s.now < ctx.deadline := by
        simpa [servedAtDeadline, hc, Context.Done] using hok1
      exact Or.inl ⟨rfl, by simp only; omega⟩
    · exact Or.inr hto
  | watch services => cases hs; exact hI
  | call =>
    cases hs
    intro c hc
    simp only [Prob.IsAlive, List.getElem?_append] at hc
    split at hc
    · exact hI c hc
    · have hmem := List.getElem?_mem hc
      rw [List.mem_singleton.mp hmem]
      refine Or.inl ⟨rfl, ?_⟩
      simp only [Prob.IsAlive, WithTimeout]
      omega
  | ask a b =>
    obtain ⟨_, _, _, _, rfl⟩ := askRendezvous_some hs
    exact hI
  | eval j =>
    obtain ⟨_, _, _, rfl⟩ := loopBody_some hs
    exact hI
  | respond j c =>
    obtain ⟨services, query, r, ctx, _, hc, rfl⟩ := caseResp_some hs
    by_cases hci : c = i
    · subst hci
      exfalso
      have hgt : ctx.deadline < s.now := by
        simpa [notAnsweredByDeadline, hc] using hok2
      rcases hI _ hc with ⟨_, hle⟩ | hto
      · simp only at hle
        omega
      · cases hto
    · intro c' hc'
      simp only [List.getElem?_set_ne hci] at hc'
      exact hI c' hc'
  | timeout c =>
    obtain ⟨ctx, hc, _, rfl⟩ := caseDone_some hs
    intro c' hc'
    by_cases hci : c = i
    · subst hci
      rw [List.getElem?_set_self (List.getElem?_eq_some.mp hc).1] at hc'
      cases hc'
      exact Or.inr rfl
    · simp only [List.getElem?_set_ne hci] at hc'
      exact hI c' hc'

/-- With a `select` served at its deadline, call `i` does not wait beyond any time `B`
from its deadline on. -/
theorem servedBound_step {p : Prob} (i : Nat) (ctx : Context) (B : Int)
    (hB : ctx.deadline ≤ B) (s : State σ) (e : Event σ) (s' : State σ)
    (hok : servedAtDeadline i s e = true)
    (hI : ∃ o, s.calls[i]? = some ⟨ctx, o⟩ ∧ (o = .waiting → s.now ≤ B))
    (hs : step p s e = some s') :
    ∃ o, s'.calls[i]? = some ⟨ctx, o⟩ ∧ (o = .waiting → s'.now ≤ B) := by
  obtain ⟨o, ho, hb⟩ := hI
  cases e with
  | tick =>
    cases hs
    refine ⟨o, ho, fun hw => ?_⟩
    subst hw
    have hlt : s.now < ctx.deadline := by
      simpa [servedAtDeadline, ho, Context.Done] using hok
    simp only
    omega
  | watch services => cases hs; exact ⟨o, ho, hb⟩
  | call =>
    cases hs
    refine ⟨o, ?_, hb⟩
    simp only [Prob.IsAlive]
    rw [List.getElem?_append_left (List.getElem?_eq_some.mp ho).1]
    exact ho
  | ask a b =>
    obtain ⟨_, _, _, _, rfl⟩ := askRendezvous_some hs
    exact ⟨o, ho, hb⟩
  | eval j =>
    obtain ⟨_, _, _, rfl⟩ := loopBody_some hs
    exact ⟨o, ho, hb⟩
  | respond j c =>
    obtain ⟨services, query, r, x, _, hc, rfl⟩ := caseResp_some hs
    by_cases hci : c = i
    · subst hci
      rw [ho] at hc
      cases hc
      exact ⟨_, List.getElem?_set_self (List.getElem?_eq_some.mp ho).1,
        fun h => (by cases h)⟩
    · exact ⟨o, by simp only [List.getElem?_set_ne hci]; exact ho, hb⟩
  | timeout c =>
    obtain ⟨x, hc, _, rfl⟩ := caseDone_some hs
    by_cases hci : c = i
    · subst hci
      rw [ho] at hc
      cases hc
      exact ⟨_, List.getElem?_set_self (List.getElem?_eq_some.mp ho).1,
        fun h => (by cases h)⟩
    · exact ⟨o, by simp only [List.getElem?_set_ne hci]; exact ho, hb⟩

end served

set_option maxRecDepth 100000 in
/-- C5 fails as stated.  Timeout 50, one target whose check takes 200 ticks before it
reports true.  No response is delivered before the deadline elapses: at time 51 the call
is still waiting and the responder is still busy.  On the schedule that leaves the call
in its `select` until the check is over, the call then receives `true` at time 200.  The
same happens when the check takes 51 ticks, one tick more than the timeout. -/
theorem late_response_still_received :
    (run (NewProbe 50) (State.init ())
      ([.watch [Servicer.pure (fun _ => true)], .call, .ask 0 0] ++
        List.replicate 51 .tick)).map (fun s => (s.now, s.calls)) =
      some (51, [⟨⟨0, 50⟩, .waiting⟩]) ∧
    (run (NewProbe 50) (State.init ())
      ([.watch [Servicer.pure (fun _ => true)], .call, .ask 0 0] ++
        List.replicate 200 .tick ++ [.eval 0, .respond 0 0])).map
        (fun s => (s.now, s.results)) = some (200, [some true]) ∧
    (run (NewProbe 50) (State.init ())
      ([.watch [Servicer.pure (fun _ => true)], .call, .ask 0 0] ++
        List.replicate 51 .tick ++ [.eval 0, .respond 0 0])).map
        (fun s => (s.now, s.results)) = some (51, [some true]) :=
  ⟨rfl, rfl, rfl⟩

/-- C5 as amended.  The timeout is positive.  On every execution on which the `select` of
call `i` is served as soon as its deadline case is ready (no time passes while the call
waits with its deadline reached) and no response is delivered to the call while the
clock has not passed its deadline (`now ≤ deadline`), the call is either still waiting
with its deadline not passed or has returned `false`; so once the deadline has passed it
has returned `false`.  On
every execution whatever: a call to which no response is delivered at all returned
`false` if it returned; the deadline case is enabled from the deadline on and returns
`false`; and while no responder is offering a value (`Watch` never called, every
responder idle or busy with its targets) the response case is not enabled.  Every step
is a total function of the state, there is no failing operation on the way. -/
theorem served_deadline_returns_false {σ : Type} (p : Prob) (w : σ) (es : List (Event σ))
    (s : State σ) (i : Nat) (c : Call)
    (hrun : run p (State.init w) es = some s) (hc : s.calls[i]? = some c) :
    (0 < p.timeout →
      holdsAlong p (servedAtDeadline i) (State.init w) es = true →
      holdsAlong p (notAnsweredByDeadline i) (State.init w) es = true →
      ((c.outcome = .waiting ∧ s.now ≤ c.ctx.deadline) ∨ c.outcome = .timedOut) ∧
      (c.ctx.deadline < s.now → c.result = some false)) ∧
    ((∀ e ∈ es, e.respondsTo i = false) → ∀ b, c.result = some b → b = false) ∧
    (c.outcome = .waiting → c.ctx.deadline ≤ s.now →
      ∃ s', step p s (.timeout i) = some s' ∧
        (s'.calls[i]?).map Call.result = some (some false)) ∧
    ((∀ r ∈ s.responders, ∀ q b, r.pc ≠ .sendResp q b) →
      ∀ j, step p s (.respond j i) = none) := by
  refine ⟨?_, ?_, ?_, ?_⟩
  · intro ht h1 h2
    have hinv : ∀ c, s.calls[i]? = some c →
        (c.outcome = .waiting ∧ s.now ≤ c.ctx.deadline) ∨ c.outcome = .timedOut :=
      run_induction_along
        (fun t e => servedAtDeadline i t e && notAnsweredByDeadline i t e)
        (fun t => ∀ c, t.calls[i]? = some c →
          (c.outcome = .waiting ∧ t.now ≤ c.ctx.deadline) ∨ c.outcome = .timedOut)
        (fun t e t' hok hI hs => deadlineWins_step i ht t e t' hok hI hs)
        (holdsAlong_and _ _ _ _ h1 h2)
        (fun c h => by simp [State.init] at h) hrun
    refine ⟨hinv c hc, fun hlate => ?_⟩
    rcases hinv c hc with ⟨_, hle⟩ | hto
    · omega
    · simp [Call.result, hto]
  · intro hno
    exact (unanswered_call_false p w es s i c hrun hc hno).1
  · intro hw hd
    obtain ⟨ctx, outcome⟩ := c
    simp only at hw hd
    subst hw
    refine ⟨_, caseDone_enabled s i ctx hc hd, ?_⟩
    simp only
    rw [List.getElem?_set_self (List.getElem?_eq_some.mp hc).1]
    rfl
  · intro hbusy j
    cases hstep : step p s (.respond j i) with
    | none => rfl
    | some t =>
      obtain ⟨services, query, r, _, hj, _, _⟩ := caseResp_some hstep
      exact absurd rfl (hbusy _ (List.getElem?_mem hj) query r)

set_option maxRecDepth 100000 in
/-- C5 as amended, at the scenario of the specification: timeout 50, one target whose
check takes 200 ticks before it reports true, and the call's `select` served at the
deadline; the call has returned `false`, and the late answer stays with the
responder. -/
theorem served_deadline_returns_false_witness :
    run (NewProbe 50) (State.init ()) (slowSchedule 50 150) = some
      { now := 200, world := (),
        responders := [⟨[Servicer.pure (fun _ => true)], .sendResp ⟨0, 50⟩ true⟩],
        senders := [], calls := [⟨⟨0, 50⟩, .timedOut⟩] } ∧
    holdsAlong (NewProbe 50) (servedAtDeadline 0) (State.init ()) (slowSchedule 50 150)
      = true ∧
    holdsAlong (NewProbe 50) (notAnsweredByDeadline 0) (State.init ())
      (slowSchedule 50 150) = true ∧
    Call.result ⟨⟨0, 50⟩, .timedOut⟩ = some false :=
  ⟨rfl, rfl, rfl,
   ((served_deadline_returns_false (NewProbe 50) () (slowSchedule 50 150)
      { now := 200, world := (),
        responders := [⟨[Servicer.pure (fun _ => true)], .sendResp ⟨0, 50⟩ true⟩],
        senders := [], calls := [⟨⟨0, 50⟩, .timedOut⟩] } 0 ⟨⟨0, 50⟩, .timedOut⟩ rfl rfl).1
      (by decide) rfl rfl).2 (by decide)⟩

set_option maxRecDepth 100000 in
/-- C6 fails as stated.  Timeout 50.  With `Watch` never called, and also with a responder
that is busy with the call's query, the call made at time 0 is still waiting in its
`select` at time 51: it has not returned within the configured timeout. -/
theorem call_waits_past_timeout :
    (run (NewProbe 50) (State.init ()) (.call :: List.replicate 51 .tick)).map
      (fun s => (s.now, s.calls)) = some (51, [⟨⟨0, 50⟩, .waiting⟩]) ∧
    (run (NewProbe 50) (State.init ())
      ([.watch [Servicer.pure (fun _ => true)], .call, .ask 0 0] ++
        List.replicate 51 .tick)).map (fun s => (s.now, s.calls, s.responders.map (fun r => r.pc)))
      = some (51, [⟨⟨0, 50⟩, .waiting⟩], [.evaluating ⟨0, 50⟩]) ∧
    (0 : Int) + (NewProbe 50).timeout < 51 :=
  ⟨rfl, rfl, by decide⟩

/-- C6 as amended.  From every state of the probe (responder never started, idle, busy or
stuck), `IsAlive()` gets to its `select` without waiting for anyone, the send of the query
being left to a goroutine of its own.  On every execution on which the call's `select` is
served as soon as its deadline case is ready (no time passes while the call waits with its
deadline reached), the call does not wait beyond the later of its call time and its
deadline: once the clock is past that time the call has returned.  On every execution
whatever, as long as neither case has fired the call keeps waiting, the deadline case is
enabled from the deadline on, needs no other goroutine and returns `false`; letting time
pass up to the deadline the call returns `false` at that very time; and on every unending
schedule on which the clock reaches the deadline and the call's deadline case gets a turn
again and again, the call does return.  How long the call waits past the deadline is not
bounded by the timeout, only by how soon its `select` is served. -/
theorem served_call_returns_by_deadline {σ : Type} (p : Prob) (s : State σ)
    (es : List (Event σ)) (s' : State σ)
    (hrun : run p s (.call :: es) = some s') :
    step p s .call = some (p.IsAlive s) ∧
    (holdsAlong p (servedAtDeadline s.calls.length) (p.IsAlive s) es = true →
      ∃ c, s'.calls[s.calls.length]? = some c ∧
        c.ctx = WithTimeout s.calls.length s.now p.timeout ∧
        (c.outcome = .waiting → s'.now ≤ max s.now (s.now + p.timeout)) ∧
        (max s.now (s.now + p.timeout) < s'.now → c.result.isSome = true)) ∧
    ((∀ e ∈ es, e.returns s.calls.length = false) →
      s'.calls[s.calls.length]? =
        some ⟨WithTimeout s.calls.length s.now p.timeout, .waiting⟩ ∧
      (s.now + p.timeout ≤ s'.now →
        ∃ t, step p s' (.timeout s.calls.length) = some t ∧
          (t.calls[s.calls.length]?).map Call.result = some (some false)) ∧
      (∃ t, run p s' (List.replicate (s.now + p.timeout - s'.now).toNat .tick ++
            [.timeout s.calls.length]) = some t ∧
          (t.calls[s.calls.length]?).map Call.result = some (some false) ∧
          t.now = max s'.now (s.now + p.timeout)) ∧
      (∀ ev : Nat → Event σ,
        (∃ k, s.now + p.timeout ≤ (trajectory p s' ev k).now) →
        (∀ k, ∃ m, k ≤ m ∧ ev m = .timeout s.calls.length) →
        ∃ k c, (trajectory p s' ev k).calls[s.calls.length]? = some c ∧
          c.outcome ≠ .waiting)) := by
  refine ⟨rfl, ?_, fun hes => (deadline_exit_available p s es s' hes hrun).2⟩
  intro hserved
  obtain ⟨t0, ht0, hrest⟩ := run_cons_some hrun
  cases ht0
  have hinv : ∃ o, s'.calls[s.calls.length]? =
        some ⟨WithTimeout s.calls.length s.now p.timeout, o⟩ ∧
      (o = .waiting → s'.now ≤ max s.now (s.now + p.timeout)) :=
    run_induction_along (servedAtDeadline s.calls.length)
      (fun t => ∃ o, t.calls[s.calls.length]? =
          some ⟨WithTimeout s.calls.length s.now p.timeout, o⟩ ∧
        (o = .waiting → t.now ≤ max s.now (s.now + p.timeout)))
      (fun t e t' hok hI hs =>
        servedBound_step _ _ _ (by simp [WithTimeout]) t e t' hok hI hs)
      hserved ⟨.waiting, by simp [Prob.IsAlive], fun _ => by simp [Prob.IsAlive]⟩ hrest
  obtain ⟨o, ho, hb⟩ := hinv
  refine ⟨_, ho, rfl, hb, fun hlate => ?_⟩
  cases o with
  | waiting =>
    have := hb rfl
    omega
  | timedOut => rfl
  | received r q => rfl

set_option maxRecDepth 100000 in
/-- C6 as amended, with no responder at all: `Watch` was never called and the timeout is
50.  With the `select` served at the deadline the call has returned `false` by time 60;
after 50 ticks with the query still waiting for a reader the deadline case is enabled;
and on the schedule that alternates a tick with a turn for the call's deadline case, the
call has returned `false` after 100 steps, at time 50. -/
theorem served_call_returns_by_deadline_witness :
    run (NewProbe 50) (State.init ())
      (.call :: (List.replicate 50 .tick ++ [.timeout 0] ++ List.replicate 10 .tick)) = some
      { now := 60, world := (), responders := [], senders := [⟨0, 50⟩],
        calls := [⟨⟨0, 50⟩, .timedOut⟩] } ∧
    holdsAlong (NewProbe 50) (servedAtDeadline 0) ((NewProbe 50).IsAlive (State.init ()))
      (List.replicate 50 .tick ++ [.timeout 0] ++ List.replicate 10 .tick) = true ∧
    (∃ c, (some ⟨⟨0, 50⟩, .timedOut⟩ : Option Call) = some c ∧
      c.ctx = WithTimeout 0 0 50 ∧
      (c.outcome = .waiting → (60 : Int) ≤ max 0 (0 + 50)) ∧
      (max 0 (0 + 50) < (60 : Int) → c.result.isSome = true)) ∧
    (∃ t, step (NewProbe 50)
        { now := 50, world := (), responders := [], senders := [⟨0, 50⟩],
          calls := [⟨⟨0, 50⟩, .waiting⟩] } (.timeout 0) = some t ∧
      (t.calls[0]?).map Call.result = some (some false)) ∧
    (∃ k c, (trajectory (NewProbe 50)
        { now := 0, world := (), responders := [], senders := [⟨0, 50⟩],
          calls := [⟨⟨0, 50⟩, .waiting⟩] } tickThenPoll k).calls[0]? = some c ∧
      c.outcome ≠ .waiting) ∧
    (trajectory (NewProbe 50)
        { now := 0, world := (), responders := [], senders := [⟨0, 50⟩],
          calls := [⟨⟨0, 50⟩, .waiting⟩] } tickThenPoll 100).calls =
      [⟨⟨0, 50⟩, .timedOut⟩] ∧
    (trajectory (NewProbe 50)
        { now := 0, world := (), responders := [], senders := [⟨0, 50⟩],
          calls := [⟨⟨0, 50⟩, .waiting⟩] } tickThenPoll 100).now = 50 :=
  ⟨rfl, rfl,
   (served_call_returns_by_deadline (NewProbe 50) (State.init ())
     (List.replicate 50 Event.tick ++ [Event.timeout 0] ++ List.replicate 10 Event.tick)
     { now := 60, world := (), responders := [], senders := [⟨0, 50⟩],
       calls := [⟨⟨0, 50⟩, .timedOut⟩] } (by rfl)).2.1 (by rfl),
   ((served_call_returns_by_deadline (NewProbe 50) (State.init ())
     (List.replicate 50 .tick)
     { now := 50, world := (), responders := [], senders := [⟨0, 50⟩],
       calls := [⟨⟨0, 50⟩, .waiting⟩] } rfl).2.2 (by simp [Event.returns])).2.1
       (by decide),
   ((served_call_returns_by_deadline (NewProbe 50) (State.init ()) []
     { now := 0, world := (), responders := [], senders := [⟨0, 50⟩],
       calls := [⟨⟨0, 50⟩, .waiting⟩] } rfl).2.2 (by simp)).2.2.2 tickThenPoll
     ⟨100, by decide⟩
     (fun k => ⟨2 * k + 1, by omega, by simp [tickThenPoll, Nat.add_mod, State.init]⟩),
   by decide, by decide⟩

section balance

variable {σ : Type}

theorem countP_set_add {α : Type} (f : α → Bool) (l : List α) (i : Nat) (x y : α)
    (h : l[i]? = some x) :
    (l.set i y).countP f + (f x).toNat = l.countP f + (f y).toNat := by
  induction l generalizing i with
  | nil => simp at h
  | cons head rest ih =>
    cases i with
    | zero =>
      have hx : head = x := by simpa using h
      subst hx
      simp only [List.set_cons_zero, List.countP_cons]
      cases f head <;> cases f y <;> simp
    | succ i =>
      have hr : rest[i]? = some x := by simpa using h
      have := ih i hr
      simp only [List.set_cons_succ, List.countP_cons]
      omega

theorem balanced_step {p : Prob} (s : State σ) (e : Event σ) (s' : State σ)
    (hI : Balanced s) (hs : step p s e = some s') : Balanced s' := by
  unfold Balanced at hI ⊢
  cases e with
  | tick => cases hs; exact hI
  | watch services =>
    cases hs
    have h0 : [(⟨services, .recvAsk⟩ : Responder σ)].countP (fun r => r.pc.busy) = 0 := rfl
    simp only [Prob.Watch, List.countP_append, h0]
    exact hI
  | call =>
    cases hs
    have h1 : ∀ ctx, [(⟨ctx, .waiting⟩ : Call)].countP (fun c => c.outcome.unanswered) = 1 :=
      fun _ => rfl
    simp only [Prob.IsAlive, List.length_append, List.length_singleton, List.countP_append, h1]
    omega
  | ask i j =>
    obtain ⟨ctx, services, hi, hj, rfl⟩ := askRendezvous_some hs
    have h1 := List.length_eraseIdx_add_one (List.getElem?_eq_some.mp hi).1
    have h2 : (s.responders.set j ⟨services, .evaluating ctx⟩).countP (fun r => r.pc.busy) + 0
        = s.responders.countP (fun r => r.pc.busy) + 1 :=
      countP_set_add (fun r : Responder σ => r.pc.busy) s.responders j _ _ hj
    simp only
    omega
  | eval j =>
    obtain ⟨ctx, services, hj, rfl⟩ := loopBody_some hs
    have h2 : (s.responders.set j
          ⟨services, .sendResp ctx (Watch.evaluate services ctx s.world).1⟩).countP
          (fun r => r.pc.busy) + 1 = s.responders.countP (fun r => r.pc.busy) + 1 :=
      countP_set_add (fun r : Responder σ => r.pc.busy) s.responders j _ _ hj
    simp only
    omega
  | respond j c =>
    obtain ⟨services, query, r, ctx, hj, hc, rfl⟩ := caseResp_some hs
    have h2 : (s.responders.set j ⟨services, .recvAsk⟩).countP (fun r => r.pc.busy) + 1
        = s.responders.countP (fun r => r.pc.busy) + 0 :=
      countP_set_add (fun r : Responder σ => r.pc.busy) s.responders j _ _ hj
    have h3 : (s.calls.set c ⟨ctx, .received r query⟩).countP
          (fun c => c.outcome.unanswered) + 1
        = s.calls.countP (fun c => c.outcome.unanswered) + 0 :=
      countP_set_add (fun c : Call => c.outcome.unanswered) s.calls c _ _ hc
    simp only
    omega
  | timeout c =>
    obtain ⟨ctx, hc, _, rfl⟩ := caseDone_some hs
    have h3 : (s.calls.set c ⟨ctx, .timedOut⟩).countP (fun c => c.outcome.unanswered) + 1
        = s.calls.countP (fun c => c.outcome.unanswered) + 1 :=
      countP_set_add (fun c : Call => c.outcome.unanswered) s.calls c _ _ hc
    simp only
    omega

theorem balanced_run {p : Prob} (w : σ) (es : List (Event σ)) (s : State σ)
    (hrun : run p (State.init w) es = some s) : Balanced s :=
  run_induction Balanced (fun _ => True) (fun t e t' _ hI ht => balanced_step t e t' hI ht)
    (fun _ _ => trivial) (by simp [Balanced, State.init]) hrun

/-- When every call made so far has received a response, nothing is left in flight. -/
theorem quiescent_of_answered (s : State σ) (hb : Balanced s)
    (hans : ∀ c ∈ s.calls, ∃ b q, c.outcome = .received b q) : s.quiescent := by
  have hzero : s.calls.countP (fun c => c.outcome.unanswered) = 0 := by
    rw [List.countP_eq_zero]
    intro c hc
    obtain ⟨b, q, ho⟩ := hans c hc
    simp [ho, Outcome.unanswered]
  unfold Balanced at hb
  rw [hzero] at hb
  have hsend : s.senders.length = 0 := by omega
  have hbusy : s.responders.countP (fun r => r.pc.busy) = 0 := by omega
  refine ⟨List.length_eq_zero.mp hsend, ?_, ?_⟩
  · intro r hr
    have := (List.countP_eq_zero.mp hbusy) r hr
    cases hpc : r.pc with
    | recvAsk => rfl
    | evaluating q => simp [hpc, Pc.busy] at this
    | sendResp q b => simp [hpc, Pc.busy] at this
  · intro c hc hw
    obtain ⟨b, q, ho⟩ := hans c hc
    rw [ho] at hw
    cases hw

end balance

/-! ## Pairing of queries and responses -/

/-- C7 fails as stated.  Timeout 1, one target that is alive for queries expiring by time
1 only.  The first call times out while the responder still holds its query; the answer
computed for that query is then received by the second call, whose own query (expiring
at time 2) the responder never saw and would have answered with `false`. -/
theorem stale_response_reaches_later_call :
    (run (NewProbe 1) (State.init ())
      [.watch [Servicer.pure (fun q => decide (q.deadline ≤ 1))], .call, .ask 0 0, .tick,
        .timeout 0, .eval 0, .call, .respond 0 1]).map State.calls =
      some [⟨⟨0, 1⟩, .timedOut⟩, ⟨⟨1, 2⟩, .received true ⟨0, 1⟩⟩] ∧
    (Watch.evaluate [Servicer.pure (fun q => decide (q.deadline ≤ 1))] ⟨1, 2⟩ ()).1 = false ∧
    (⟨0, 1⟩ : Context) ≠ ⟨1, 2⟩ :=
  ⟨rfl, rfl, by decide⟩

/-- C7 as amended.  With one `Watch` responder on pure targets `fs`, a value that a call
receives is the conjunction of the targets at the query of some `IsAlive()` call made on
this probe, not necessarily its own.  It is the result for the call's own query when
every earlier call has returned with a response (none timed out, none is still waiting)
and no other call is made before this one returns. -/
theorem received_answer_pairing {σ : Type} (p : Prob) (fs : List (Context → Bool)) (w : σ)
    (es : List (Event σ)) (s : State σ)
    (hes : ∀ e ∈ es, e.isWatch = false)
    (hrun : run p (State.init w) (.watch (fs.map Servicer.pure) :: es) = some s) :
    (∀ c ∈ s.calls, ∀ b q, c.outcome = .received b q →
      Issued s q ∧ b = fs.all (fun f => f q)) ∧
    ((∀ c ∈ s.calls, ∃ b q, c.outcome = .received b q) →
      ∀ (es' : List (Event σ)) (s' : State σ),
      (∀ e ∈ es', e.isCall = false ∧ e.isWatch = false) →
      run p s (.call :: es') = some s' →
      ∀ c b q, s'.calls[s.calls.length]? = some c → c.outcome = .received b q →
        c.ctx = WithTimeout s.calls.length s.now p.timeout ∧ q = c.ctx ∧
          b = fs.all (fun f => f c.ctx)) := by
  have hflight := inFlight_run (p := p) w _ s hrun
  have hinv := answers_run (p := p) (P := fun q b => b = fs.all (fun f => f q))
    (fs.map Servicer.pure) (fun ctx w' => by rw [evaluate_pure]) w es s hes hrun
  refine ⟨fun c hc b q ho => ⟨hflight.2.2 c hc b q ho, hinv.2.2 c hc b q ho⟩, ?_⟩
  intro hans es' s' hes' hrun' c b q hc ho
  have hq : s.quiescent := quiescent_of_answered s (balanced_run (p := p) w _ s hrun) hans
  have hpair := paired_run s hq es' s' (fun e he => (hes' e he).1) hrun'
  obtain ⟨hctx, hrecv⟩ := hpair.2.2.2 c hc
  have hqc : q = c.ctx := by rw [hctx]; exact hrecv b q ho
  have hall : run p (State.init w)
      (.watch (fs.map Servicer.pure) :: (es ++ .call :: es')) = some s' := by
    rw [← List.cons_append, run_append, hrun]
    exact hrun'
  have hinv' := answers_run (p := p) (P := fun q b => b = fs.all (fun f => f q))
    (fs.map Servicer.pure) (fun ctx w' => by rw [evaluate_pure]) w _ s'
    (fun e he => by
      rcases List.mem_append.mp he with h | h
      · exact hes e h
      · rcases List.mem_cons.mp h with h' | h'
        · rw [h']; rfl
        · exact (hes' e h').2) hall
  refine ⟨hctx, hqc, ?_⟩
  rw [← hqc]
  exact hinv'.2.2 c (List.getElem?_mem hc) b q ho

/-- C7 as amended, at the probe of the counterexample used without timeout or overlap:
`Watch`, a first call answered at once, then a second call whose query is handed over
one tick later, evaluated and answered: it receives the result for its own query. -/
theorem received_answer_pairing_witness :
    run (NewProbe 1) (State.init ())
      (.watch ([fun q => decide (q.deadline ≤ 1)].map Servicer.pure) ::
        (roundTrip 0 ++ [.call, .tick, .ask 0 0, .eval 0, .respond 0 1])) = some
      { now := 1, world := (),
        responders := [⟨[fun q => decide (q.deadline ≤ 1)].map Servicer.pure, .recvAsk⟩],
        senders := [],
        calls := [⟨⟨0, 1⟩, .received true ⟨0, 1⟩⟩, ⟨⟨1, 1⟩, .received true ⟨1, 1⟩⟩] } ∧
    ((⟨1, 1⟩ : Context) = WithTimeout 1 0 (NewProbe 1).timeout ∧
      (⟨1, 1⟩ : Context) = ⟨1, 1⟩ ∧
      true = [fun (q : Context) => decide (q.deadline ≤ 1)].all (fun f => f ⟨1, 1⟩)) :=
  ⟨rfl,
   (received_answer_pairing (NewProbe 1) [fun q => decide (q.deadline ≤ 1)] ()
      (roundTrip 0)
      { now := 0, world := (),
        responders := [⟨[fun q => decide (q.deadline ≤ 1)].map Servicer.pure, .recvAsk⟩],
        senders := [], calls := [⟨⟨0, 1⟩, .received true ⟨0, 1⟩⟩] }
      (by simp [roundTrip, Event.isWatch]) rfl).2 (by simp)
      [.tick, .ask 0 0, .eval 0, .respond 0 1]
      { now := 1, world := (),
        responders := [⟨[fun q => decide (q.deadline ≤ 1)].map Servicer.pure, .recvAsk⟩],
        senders := [],
        calls := [⟨⟨0, 1⟩, .received true ⟨0, 1⟩⟩, ⟨⟨1, 1⟩, .received true ⟨1, 1⟩⟩] }
      (by simp [Event.isCall, Event.isWatch]) rfl
      ⟨⟨1, 1⟩, .received true ⟨1, 1⟩⟩ true ⟨1, 1⟩ rfl rfl⟩

/-! ## Repeated calls, false positives, empty registration -/

/-- C8.  `Watch` registers the pure targets `fs`, and `n` calls are made one after the
other, each answered before the next.  Call number `k` holds the conjunction of the
targets at its own query, whatever `k` is and however many queries were served before,
and after the last round trip the probe is in the state it was in before the first:
same clock, same world, the responder back at its receive, no send pending.  When the
targets are always true, each of the `n` calls returns `true`. -/
theorem successive_calls_independent {σ : Type} (p : Prob) (fs : List (Context → Bool))
    (w : σ) (n : Nat) :
    run p (State.init w) (.watch (fs.map Servicer.pure) :: roundTrips 0 n) = some
      { now := 0, world := w,
        responders := [⟨fs.map Servicer.pure, .recvAsk⟩],
        senders := [],
        calls := (List.range n).map (answered p fs 0) } ∧
    ((∀ f ∈ fs, ∀ ctx, f ctx = true) →
      ((List.range n).map (answered p fs 0)).map Call.result = List.replicate n (some true)) := by
  constructor
  · have h := roundTrips_run p fs n (Prob.Watch (State.init w) (fs.map Servicer.pure)) rfl rfl
    rw [run_cons]
    simp only [step, Option.some_bind]
    have h0 : (Prob.Watch (State.init w) (fs.map Servicer.pure)).calls.length = 0 := rfl
    rw [h0] at h
    rw [h]
    simp [Prob.Watch, State.init, List.range_eq_range']
  · intro htrue
    have hall : ∀ ctx, fs.all (fun f => f ctx) = true := by
      intro ctx
      rw [List.all_eq_true]
      exact fun f hf => htrue f hf ctx
    rw [List.map_map]
    have hconst : (Call.result ∘ answered p fs 0) = fun _ => some true := by
      funext k
      simp [answered, Call.result, hall]
    rw [hconst]
    simp [List.map_const']

/-- C8 at two always-true targets, timeout 500 and three successive calls. -/
theorem successive_calls_independent_witness :
    (run (NewProbe 500) (State.init ())
      (.watch ([fun _ => true, fun _ => true].map Servicer.pure) :: roundTrips 0 3)).map
        State.results = some [some true, some true, some true] ∧
    ((List.range 3).map (answered (NewProbe 500) [fun _ => true, fun _ => true] 0)).map
      Call.result = List.replicate 3 (some true) :=
  ⟨rfl, (successive_calls_independent (NewProbe 500) [fun _ => true, fun _ => true] () 3).2
    (by simp)⟩

/-- C9, no false positive.  A call returns `true` only if it received `true` from the
response channel; the loop yields `true` only if every target reported true; hence, with
one `Watch` registration holding a target that reports false on every call, in every
execution (any interleaving, any timeout, any number of timed-out calls) every value
the responder sends is `false` and no call returns `true`. -/
theorem no_false_positive {σ : Type} (p : Prob) (services : List (Servicer σ)) (w : σ)
    (service : Servicer σ) (hmem : service ∈ services)
    (hfalse : ∀ ctx w', (service.IsAlive ctx w').1 = false)
    (es : List (Event σ)) (s : State σ) (hes : ∀ e ∈ es, e.isWatch = false)
    (hrun : run p (State.init w) (.watch services :: es) = some s) :
    (∀ c ∈ s.calls, c.result = some true → ∃ q, c.outcome = .received true q) ∧
    (∀ (fs : List (Context → Bool)) ctx (w' : σ),
      (Watch.evaluate (fs.map Servicer.pure) ctx w').1 = true → ∀ f ∈ fs, f ctx = true) ∧
    (∀ ctx w', (Watch.evaluate services ctx w').1 = false) ∧
    (∀ r ∈ s.responders, ∀ q b, r.pc = .sendResp q b → b = false) ∧
    (∀ c ∈ s.calls, c.result ≠ some true) := by
  have hev : ∀ ctx w', (Watch.evaluate services ctx w').1 = false := fun ctx w' =>
    evaluate_of_false services ctx w' service hmem (hfalse ctx)
  have hinv := answers_run (p := p) (P := fun _ b => b = false) services hev w es s hes hrun
  refine ⟨fun c _ h => result_true_received c h, ?_, hev, hinv.2.1, ?_⟩
  · intro fs ctx w' h f hf
    rw [evaluate_pure] at h
    exact (List.all_eq_true.mp h) f hf
  · intro c hc h
    have := result_false_of_answers s hinv.2 c hc true h
    cases this

/-- C9 at the execution in which an earlier call timed out and the responder's late
answer reaches the next call: with a target that always reports false next to one that
always reports true, that call returns `false` too. -/
theorem no_false_positive_witness :
    (run (NewProbe 1) (State.init ())
      [.watch [Servicer.pure (fun _ => true), Servicer.pure (fun _ => false)], .call,
        .ask 0 0, .tick, .timeout 0, .eval 0, .call, .respond 0 1]).map State.results =
      some [some false, some false] ∧
    Call.result ⟨⟨1, 2⟩, .received false ⟨0, 1⟩⟩ ≠ some true :=
  ⟨rfl, (no_false_positive (NewProbe 1)
    [Servicer.pure (fun _ => true), Servicer.pure (fun _ => false)] ()
    (Servicer.pure (fun _ => false)) (by simp) (fun _ _ => rfl)
    [.call, .ask 0 0, .tick, .timeout 0, .eval 0, .call, .respond 0 1]
    { now := 1, world := (),
      responders := [⟨[Servicer.pure (fun _ => true), Servicer.pure (fun _ => false)],
        .recvAsk⟩],
      senders := [⟨1, 2⟩],
      calls := [⟨⟨0, 1⟩, .timedOut⟩, ⟨⟨1, 2⟩, .received false ⟨0, 1⟩⟩] }
    (by simp [Event.isWatch]) rfl).2.2.2.2 _ (by simp)⟩

/-- C10, empty registration.  After `Watch()` with no target the loop body yields `true`
for every query, the direct round trip of a call returns `true`, and in every execution
every value the responder sends is `true` and every call that got a response returned
`true`. -/
theorem empty_registration_answers_true {σ : Type} (p : Prob) (w : σ)
    (es : List (Event σ)) (s : State σ) (hes : ∀ e ∈ es, e.isWatch = false)
    (hrun : run p (State.init w) (.watch [] :: es) = some s) :
    (∀ ctx (w' : σ), Watch.evaluate [] ctx w' = (true, w')) ∧
    (∃ t, run p (State.init w) (.watch [] :: roundTrip 0) = some t ∧
      t.results = [some true]) ∧
    (∀ r ∈ s.responders, ∀ q b, r.pc = .sendResp q b → b = true) ∧
    (∀ c ∈ s.calls, ∀ b q, c.outcome = .received b q → c.result = some true) := by
  have hinv := answers_run (p := p) (P := fun _ b => b = true) ([] : List (Servicer σ))
    (fun _ _ => rfl) w es s hes hrun
  refine ⟨fun _ _ => rfl, ?_, hinv.2.1, ?_⟩
  · have h := roundTrip_run p (Prob.Watch (State.init w) ([] : List (Servicer σ))) _ rfl rfl
    exact ⟨_, h, by simp [State.results, Call.result, Prob.Watch, State.init, Watch.evaluate]⟩
  · intro c hc b q ho
    have hb := hinv.2.2 c hc b q ho
    simp [Call.result, ho, hb]

/-- C10 at timeout 500: `Watch()` with no target, then one call answered at once. -/
theorem empty_registration_answers_true_witness :
    run (NewProbe 500) (State.init ()) (.watch [] :: roundTrip 0) = some
      { now := 0, world := (), responders := [⟨[], .recvAsk⟩], senders := [],
        calls := [⟨⟨0, 500⟩, .received true ⟨0, 500⟩⟩] } ∧
    Call.result ⟨⟨0, 500⟩, .received true ⟨0, 500⟩⟩ = some true :=
  ⟨rfl, (empty_registration_answers_true (NewProbe 500) () (roundTrip 0)
    { now := 0, world := (), responders := [⟨[], .recvAsk⟩], senders := [],
      calls := [⟨⟨0, 500⟩, .received true ⟨0, 500⟩⟩] }
    (by simp [roundTrip, Event.isWatch]) rfl).2.2.2 _ (by simp) true ⟨0, 500⟩ rfl⟩

end liveness
